import Mathlib

/-!
# Verification development for the `bag_rdr` bag-file reading engine

This file gives a shallow embedding, in Lean 4, of the data model and the
operations of the `bag_rdr` library (a read-only, chunked, self-indexing
binary log ("bag") reader), and proves properties of that embedding.

The repository ships `bag_rdr.hpp`, which contains the full public surface
and several inline member functions (the typed-decode front end
`message::is` / `message::to`, the `view` builder methods, and the iterator
equality operator).  Those are embedded here directly from the source.
The out-of-line implementation (record parsing, index building, and the
k-way merge iterator) is not part of the shipped sources; those components
are modelled from the specification, and each such definition is marked
`Modelled from the spec:` in its doc comment.

Conventions of the embedding:
* machine integers are modelled as `Nat` (no arithmetic overflow is
  relevant to the properties proved here, except for the 4-byte record
  length prefixes, where an explicit `< 2 ^ 32` bound is carried);
* timestamps are modelled as `Nat`: the engine only ever compares them;
* byte buffers are `List Nat`; payloads are `List Char`;
* fallible operations return `Except` / `Option` values.
-/

/-! ## Generic list helpers -/

/-! ## Typed message decoding (`bag_rdr::message::is` / `::to`)

These two member functions are implemented inline in `bag_rdr.hpp` and are
embedded here from that source.  The external deserialization backend
(`ros::serialization::deserialize`) is abstracted as a boolean-returning
function on the raw payload (`true` = deserialized without throwing), and
the embedding of `to` additionally counts how many times the backend is
invoked, so that "fails without invoking the backend" is expressible. -/

/-- One decoded message, as far as typed decoding is concerned: its recorded
schema hash (`md5` member) and its raw payload (`message_data_block` member). -/
structure msg where
  md5 : String
  message_data_block : List Char
deriving DecidableEq

/-- Embedding of `bag_rdr::message::is<T>()`:
`return (t_md5sum == "*") || (t_md5sum == md5);` where `t_md5sum` is the
target type's declared MD5 checksum string. -/
def msg.is (m : msg) (t_md5sum : String) : Bool :=
  (t_md5sum == "*") || (t_md5sum == m.md5)

/-- Embedding of `bag_rdr::message::to<T>(T&)` together with an invocation
counter for the deserialization backend.  The source reads:
`if (!is<T>()) return false;` then constructs an `IStream` over
`message_data_block` and calls `ros::serialization::deserialize`, returning
`false` if it throws and `true` otherwise.  The result is the returned
boolean paired with the number of backend invocations performed. -/
def msg.toTrace (m : msg) (t_md5sum : String) (backend : List Char → Bool) :
    Bool × Nat :=
  if m.is t_md5sum = false then (false, 0)
  else (backend m.message_data_block, 1)

/-! ## The `view` value and its builder methods

`bag_rdr::view`'s data members (`bag_rdr.hpp` lines 240–243) are the
back-reference to the reader, an optional vector of selected connections
(`m_connections`), and the two timestamp bounds.  The back-reference is
implicit here (the bag is passed alongside the view); connections are
identified by their discovery index in the file. -/

structure view where
  m_connections : Option (List Nat)
  m_start_time : Nat
  m_end_time : Nat
deriving DecidableEq

/-- Embedding of `view::with_start_time` (source: `m_start_time = start_time; return *this;`). -/
def view.with_start_time (v : view) (start_time : Nat) : view :=
  { v with m_start_time := start_time }

/-- Embedding of `view::with_end_time` (source: `m_end_time = end_time; return *this;`). -/
def view.with_end_time (v : view) (end_time : Nat) : view :=
  { v with m_end_time := end_time }

/-- Embedding of `view::with_time_range`
(source: `m_start_time = start_time; m_end_time = end_time; return *this;`). -/
def view.with_time_range (v : view) (start_time end_time : Nat) : view :=
  { v with m_start_time := start_time, m_end_time := end_time }

/-! ## Index data model and the k-way merge iterator

The out-of-line implementation of `bag_rdr` (record scanning, index
building, `view::begin`, `view::iterator::operator++`) is not among the
shipped sources; the definitions in this section are modelled from the
specification (sections 3, 4.4, 4.5). -/

/-- `Modelled from the spec:` a `MessagePosition` — "a (chunk identifier,
offset-within-chunk) pair plus the message's timestamp; the unit stored in
the index". -/
structure Pos where
  chunk : Nat
  offset : Nat
  stamp : Nat
deriving DecidableEq

/-- `Modelled from the spec:` one connection of the Index: its topic name
and its ordered-by-time list of message positions. -/
structure Conn where
  topic : String
  positions : List Pos
deriving DecidableEq

/-- A bag's Index: one `Conn` per connection, listed in file-discovery
order; a connection is identified by its index in this list. -/
abbrev Bag := List Conn

/-- The position list of connection `c` (empty for an out-of-range id). -/
def posList (bag : Bag) (c : Nat) : List Pos :=
  (bag.getD c ⟨"", []⟩).positions

/-- The topic of connection `c`. -/
def topicOf (bag : Bag) (c : Nat) : String :=
  (bag.getD c ⟨"", []⟩).topic

/-- Per-connection position lists are ordered by timestamp (the Index
invariant of spec section 3). -/
def StampsSorted (l : List Pos) : Prop :=
  List.Pairwise (fun p q => p.stamp ≤ q.stamp) l

instance (l : List Pos) : Decidable (StampsSorted l) :=
  inferInstanceAs (Decidable (List.Pairwise _ l))

def SortedBag (bag : Bag) : Prop :=
  ∀ c ∈ bag, StampsSorted c.positions

instance (bag : Bag) : Decidable (SortedBag bag) :=
  List.decidableBAll _ bag

/-- No connection's position list contains the same position twice
(distinct messages sit at distinct chunk offsets). -/
def NodupBag (bag : Bag) : Prop :=
  ∀ c ∈ bag, c.positions.Nodup

instance (bag : Bag) : Decidable (NodupBag bag) :=
  List.decidableBAll _ bag

/-- `Modelled from the spec:` one per-connection cursor of the merge
iterator (the `pos_ref` entries of `iterator::connection_positions`):
the connection's discovery index and the index of its next unread
position in that connection's position list. -/
structure Cursor where
  conn : Nat
  idx : Nat
deriving DecidableEq

/-- One element of the yielded sequence: the connection it came from, the
index of the emitted position inside that connection's position list, and
the position itself. -/
structure Emission where
  conn : Nat
  idx : Nat
  pos : Pos
deriving DecidableEq

/-- A cursor is still in consideration: it has a remaining position and
that position's timestamp does not exceed the end bound (spec 4.5: "if its
new head timestamp exceeds the end bound, remove it from further
consideration"). -/
def alive (bag : Bag) (endT : Nat) (c : Cursor) : Bool :=
  match (posList bag c.conn)[c.idx]? with
  | some p => decide (p.stamp ≤ endT)
  | none => false

/-- The timestamp at a cursor's head (0 when exhausted; only used on live
cursors). -/
def stampAt (bag : Bag) (c : Cursor) : Nat :=
  ((posList bag c.conn).getD c.idx ⟨0, 0, 0⟩).stamp

/-- Lexicographic comparison on (head timestamp, connection discovery
index): spec 4.5, "pick the one with the smallest timestamp (ties broken
by connection discovery order)". -/
abbrev PairLt (a b : Nat × Nat) : Prop :=
  a.1 < b.1 ∨ (a.1 = b.1 ∧ a.2 < b.2)

abbrev PairLe (a b : Nat × Nat) : Prop :=
  a.1 < b.1 ∨ (a.1 = b.1 ∧ a.2 ≤ b.2)

def keyOf (bag : Bag) (c : Cursor) : Nat × Nat :=
  (stampAt bag c, c.conn)

/-- `Modelled from the spec:` selection of the next connection to emit
from — the minimum of the live cursors under `PairLt` (earliest cursor
wins ties, matching discovery order since the state list is kept in
discovery order). -/
def pickMin (bag : Bag) : List Cursor → Option Cursor
  | [] => none
  | c :: rest =>
    match pickMin bag rest with
    | none => some c
    | some c2 => if PairLt (keyOf bag c2) (keyOf bag c) then some c2 else some c

/-- `Modelled from the spec:` advancing the cursor of connection `cn`
inside the state: its index is incremented, and the entry is removed when
the advanced cursor is no longer live. -/
def bump (bag : Bag) (endT : Nat) (cn : Nat) : List Cursor → List Cursor
  | [] => []
  | x :: rest =>
    if x.conn = cn then
      (if alive bag endT ⟨x.conn, x.idx + 1⟩ then Cursor.mk x.conn (x.idx + 1) :: rest
       else rest)
    else x :: bump bag endT cn rest

/-- The emission produced by a cursor. -/
def emis (bag : Bag) (c : Cursor) : Emission :=
  ⟨c.conn, c.idx, (posList bag c.conn).getD c.idx ⟨0, 0, 0⟩⟩

/-- `Modelled from the spec:` the merge loop — repeatedly pick the live
cursor with the smallest (timestamp, discovery index) key, emit its head,
and advance it.  `fuel` bounds the number of steps; it is instantiated
with the total number of remaining positions. -/
def runFuel (bag : Bag) (endT : Nat) : Nat → List Cursor → List Emission
  | 0, _ => []
  | n + 1, st =>
    match pickMin bag st with
    | none => []
    | some c => emis bag c :: runFuel bag endT n (bump bag endT c.conn st)

/-- Total number of remaining positions of a state. -/
def weight (bag : Bag) (st : List Cursor) : Nat :=
  (st.map (fun c => (posList bag c.conn).length - c.idx)).sum

/-- A well-formed iterator state: cursors are listed in strictly increasing
connection-discovery order and every cursor is live. -/
def ValidState (bag : Bag) (endT : Nat) (st : List Cursor) : Prop :=
  List.Pairwise (fun a b => a.conn < b.conn) st ∧ ∀ c ∈ st, alive bag endT c = true

/-- `Modelled from the spec:` the seek performed by `view::begin` for one
connection — "binary-search (by timestamp) its position list to the first
entry ≥ start time".  For a sorted list that first index equals the number
of strictly earlier entries. -/
def seekIdx (bag : Bag) (startT : Nat) (c : Nat) : Nat :=
  (posList bag c).countP (fun p => decide (p.stamp < startT))

/-- The connections a view selects, in discovery order (`m_connections`
absent means "all connections"). -/
def selectedConns (bag : Bag) (v : view) : List Nat :=
  v.m_connections.getD (List.range bag.length)

/-- Initial cursors of `view::begin`, before discarding dead ones. -/
def initCursors (bag : Bag) (v : view) : List Cursor :=
  (selectedConns bag v).map (fun c => ⟨c, seekIdx bag v.m_start_time c⟩)

/-- `Modelled from the spec:` the state built by `view::begin`: one seeded
cursor per selected connection, keeping only those with a remaining
in-range position. -/
def initState (bag : Bag) (v : view) : List Cursor :=
  (initCursors bag v).filter (alive bag v.m_end_time)

/-- The full message sequence yielded by iterating a view from `begin()`
to `end()`. -/
def viewRun (bag : Bag) (v : view) : List Emission :=
  runFuel bag v.m_end_time (weight bag (initState bag v)) (initState bag v)

/-- `Modelled from the spec:` `view::set_topics` — select exactly the
connections whose topic is in the given list, in discovery order. -/
def set_topics (bag : Bag) (v : view) (topics : List String) : view :=
  { v with
    m_connections :=
      some ((List.range bag.length).filter (fun c => decide (topicOf bag c ∈ topics))) }

/-- All message timestamps of the bag. -/
def allStamps : Bag → List Nat
  | [] => []
  | c :: rest => c.positions.map Pos.stamp ++ allStamps rest

/-- `Modelled from the spec:` `bag_rdr::start_timestamp()` — the smallest
message timestamp in the file (0 for an empty file). -/
def start_timestamp (bag : Bag) : Nat :=
  match allStamps bag with
  | [] => 0
  | s :: rest => rest.foldl Nat.min s

/-- `Modelled from the spec:` `bag_rdr::end_timestamp()` — the largest
message timestamp in the file. -/
def end_timestamp (bag : Bag) : Nat :=
  (allStamps bag).foldr Nat.max 0

/-- `Modelled from the spec:` the default view produced by
`bag_rdr::get_view()` — no topic restriction, whole-file time range. -/
def get_view (bag : Bag) : view :=
  ⟨none, start_timestamp bag, end_timestamp bag⟩

/-- Embedding of `view::iterator::operator==` (`bag_rdr.hpp` lines
206–208): `return connection_positions == other.connection_positions;` —
structural equality of the cursor vectors, and nothing else. -/
def iter_eq (s1 s2 : List Cursor) : Bool :=
  decide (s1 = s2)

/-- `view::end()` returns a default-constructed iterator: its
`connection_positions` vector is empty. -/
def end_iter : List Cursor := []

/-- The sequence of messages an iterator state would still produce:
(connection, position) pairs, as surfaced by `operator*`. -/
def msgSeq (bag : Bag) (endT : Nat) (st : List Cursor) : List (Nat × Pos) :=
  (runFuel bag endT (weight bag st) st).map (fun e => (e.conn, e.pos))

/-! ## Remaining-stream semantics of an iterator state

`remT` computes, for one cursor, the emissions it will still contribute:
the tagged tail of its position list, cut at the first timestamp beyond
the end bound.  `stRem` concatenates these per-connection streams; the
merge loop is proved to yield a sorted permutation of it. -/

/-- Tag a list of positions with consecutive indices starting at `i`. -/
def tagFrom (i : Nat) : List Pos → List (Nat × Pos)
  | [] => []
  | p :: rest => (i, p) :: tagFrom (i + 1) rest

/-- Longest prefix whose timestamps are all ≤ `endT`. -/
def takeLE (endT : Nat) : List (Nat × Pos) → List (Nat × Pos)
  | [] => []
  | ip :: rest => if ip.2.stamp ≤ endT then ip :: takeLE endT rest else []

/-- The emissions one cursor will still contribute. -/
def remT (bag : Bag) (endT : Nat) (c : Cursor) : List Emission :=
  (takeLE endT (tagFrom c.idx ((posList bag c.conn).drop c.idx))).map
    (fun ip => ⟨c.conn, ip.1, ip.2⟩)

/-- The concatenation of all cursors' remaining streams, in state order. -/
def stRem (bag : Bag) (endT : Nat) : List Cursor → List Emission
  | [] => []
  | c :: rest => remT bag endT c ++ stRem bag endT rest

/-- The elements of `remT` are strictly sorted by (stamp, conn, idx). -/
def ELt (a b : Emission) : Prop :=
  a.pos.stamp < b.pos.stamp ∨
    (a.pos.stamp = b.pos.stamp ∧
      (a.conn < b.conn ∨ (a.conn = b.conn ∧ a.idx < b.idx)))

instance (a b : Emission) : Decidable (ELt a b) :=
  inferInstanceAs (Decidable (_ ∨ _))

/-! ## View-level corollaries -/

def ViewWf (bag : Bag) (v : view) : Prop :=
  List.Pairwise (fun a b => a < b) (selectedConns bag v)

instance (bag : Bag) (v : view) : Decidable (ViewWf bag v) :=
  inferInstanceAs (Decidable (List.Pairwise _ _))

/-! ## Per-connection projection of a run (for iterator equality) -/

/-- The cursor of connection `cn` in a state, if any. -/
def findCursor (st : List Cursor) (cn : Nat) : Option Cursor :=
  st.find? (fun x => decide (x.conn = cn))

/-- The remaining stream of an optional cursor. -/
def optRem (bag : Bag) (endT : Nat) : Option Cursor → List Emission
  | none => []
  | some cur => remT bag endT cur

/-! ## Index construction: fast path vs. recovery path

`Modelled from the spec:` the Index Builder (spec 4.4) is not among the
shipped sources.  A chunk's decompressed contents are modelled as the list
of its nested records; each record carries the byte sizes of its header
and data blocks, so that in-chunk offsets are well defined (each record
occupies `4 + header + 4 + data` bytes, spec section 6). -/

/-- One nested record of a decompressed chunk. -/
inductive nested_rec where
  | msg (conn stamp hdrLen dataLen : Nat)
  | connRec (hdrLen dataLen : Nat)
  | other (hdrLen dataLen : Nat)
deriving DecidableEq

/-- Serialized size of a nested record: two 4-byte length prefixes plus
the header and data blocks. -/
def nrec_size : nested_rec → Nat
  | .msg _ _ h d => 8 + h + d
  | .connRec h d => 8 + h + d
  | .other h d => 8 + h + d

/-- `Modelled from the spec:` the recovery path for one chunk and one
connection — "materialize the chunk and linearly scan its nested
MessageData records, recording each (timestamp, offset) under its
connection id" (spec 4.4), keeping a running offset as the scan walks the
buffer. -/
def scan_chunk (conn : Nat) : Nat → List nested_rec → List (Nat × Nat)
  | _, [] => []
  | o, .msg c t h d :: rest =>
    if c = conn then (t, o) :: scan_chunk conn (o + (8 + h + d)) rest
    else scan_chunk conn (o + (8 + h + d)) rest
  | o, .connRec h d :: rest => scan_chunk conn (o + (8 + h + d)) rest
  | o, .other h d :: rest => scan_chunk conn (o + (8 + h + d)) rest

/-- The in-chunk offsets at which consecutive nested records begin. -/
def chunk_offsets : Nat → List nested_rec → List Nat
  | _, [] => []
  | o, r :: rest => o :: chunk_offsets (o + nrec_size r) rest

/-- `Modelled from the spec:` the embedded IndexData record a writer emits
for one chunk and one connection — "an explicit ordered list of
(timestamp, in-chunk offset) pairs" (spec 4.4), the offsets being where
the writer laid the records out. -/
def index_data_for (conn : Nat) (ch : List nested_rec) : List (Nat × Nat) :=
  (ch.zip (chunk_offsets 0 ch)).filterMap (fun ro =>
    match ro.1 with
    | .msg c t _ _ => if c = conn then some (t, ro.2) else none
    | _ => none)

/-- Turn per-chunk (timestamp, offset) pairs into index positions. -/
def toPositions (chunkIdx : Nat) (l : List (Nat × Nat)) : List Pos :=
  l.map (fun so => ⟨chunkIdx, so.2, so.1⟩)

/-- Fold a per-chunk extraction function over all chunks of a file. -/
def index_from (f : List nested_rec → List (Nat × Nat)) :
    Nat → List (List nested_rec) → List Pos
  | _, [] => []
  | i, ch :: rest => toPositions i (f ch) ++ index_from f (i + 1) rest

/-- `Modelled from the spec:` the fast path — "adopt [the embedded
IndexData records] directly" (spec 4.4). -/
def fast_index (conn : Nat) (chunks : List (List nested_rec)) : List Pos :=
  index_from (index_data_for conn) 0 chunks

/-- `Modelled from the spec:` the recovery path — scan every chunk's
nested MessageData records (spec 4.4). -/
def recovery_index (conn : Nat) (chunks : List (List nested_rec)) : List Pos :=
  index_from (fun ch => scan_chunk conn 0 ch) 0 chunks

/-! ## The record grammar parser on raw bytes

`Modelled from the spec:` `bag_rdr::internal_load_records` is not among
the shipped sources.  The record framing is modelled from spec section 6:
each record is `[u32 header_len][header bytes][u32 data_len][data bytes]`,
the u32 being little-endian.  A declared length exceeding the remaining
buffer is a corrupt record (spec 4.2). -/

/-- Little-endian 4-byte encoding of a u32 value. -/
def le4 (n : Nat) : List Nat :=
  [n % 256, n / 256 % 256, n / 65536 % 256, n / 16777216 % 256]

/-- Read a little-endian u32 from the first four bytes of a buffer
(0 when fewer than four bytes remain; the caller checks lengths first). -/
def rd4 : List Nat → Nat
  | b0 :: b1 :: b2 :: b3 :: _ => b0 + 256 * b1 + 65536 * b2 + 16777216 * b3
  | _ => 0

inductive parse_outcome where
  | atEnd
  | corrupt
  | record (hdr data rest : List Nat)
deriving DecidableEq

/-- `Modelled from the spec:` parse one record at the front of the buffer
(spec 4.2): a 4-byte length-prefixed header block followed by a 4-byte
length-prefixed data block; a header or data length exceeding the
remaining buffer yields a CorruptRecord outcome. -/
def parseRecord (buf : List Nat) : parse_outcome :=
  if buf.length = 0 then .atEnd
  else if buf.length < 4 then .corrupt
  else if (buf.drop 4).length < rd4 buf then .corrupt
  else if ((buf.drop 4).drop (rd4 buf)).length < 4 then .corrupt
  else if (((buf.drop 4).drop (rd4 buf)).drop 4).length
      < rd4 ((buf.drop 4).drop (rd4 buf)) then .corrupt
  else .record ((buf.drop 4).take (rd4 buf))
    ((((buf.drop 4).drop (rd4 buf)).drop 4).take (rd4 ((buf.drop 4).drop (rd4 buf))))
    ((((buf.drop 4).drop (rd4 buf)).drop 4).drop (rd4 ((buf.drop 4).drop (rd4 buf))))

/-- A record as a writer lays it out: header bytes and data bytes. -/
structure raw_rec where
  hdr : List Nat
  data : List Nat
deriving DecidableEq

/-- Both block lengths fit in the u32 length prefixes. -/
def WfRec (r : raw_rec) : Prop :=
  r.hdr.length < 4294967296 ∧ r.data.length < 4294967296

instance (r : raw_rec) : Decidable (WfRec r) :=
  inferInstanceAs (Decidable (_ ∧ _))

/-- Serialize one record per the framing of spec section 6. -/
def serialize (r : raw_rec) : List Nat :=
  le4 r.hdr.length ++ r.hdr ++ (le4 r.data.length ++ r.data)

/-- Serialize a record stream. -/
def serializeAll : List raw_rec → List Nat
  | [] => []
  | r :: rest => serialize r ++ serializeAll rest

/-- The parsed form of a well-formed record stream laid out from offset
`o`: each record paired with the offset at which it starts. -/
def withOffsets : Nat → List raw_rec → List (Nat × List Nat × List Nat)
  | _, [] => []
  | o, r :: rest => (o, r.hdr, r.data) :: withOffsets (o + (serialize r).length) rest

/-- A parsed record strictly consumes buffer bytes (termination measure
for the record scan). -/
def parseRecord_rest_lt {buf hdr data rest : List Nat}
    (h : parseRecord buf = .record hdr data rest) : rest.length < buf.length := by
  unfold parseRecord at h
  split at h
  · cases h
  · split at h
    · cases h
    · split at h
      · cases h
      · split at h
        · cases h
        · split at h
          · cases h
          · cases h
            simp only [List.length_drop]
            omega

/-- `Modelled from the spec:` scan a whole buffer record by record from
offset `o`, collecting each record's (offset, header, data) and whether
the scan reached the end of the buffer cleanly (`true`) or stopped at a
corrupt record (`false`). -/
def parseAll (o : Nat) (buf : List Nat) : List (Nat × List Nat × List Nat) × Bool :=
  match h : parseRecord buf with
  | .atEnd => ([], true)
  | .corrupt => ([], false)
  | .record hdr data rest =>
    ((o, hdr, data) :: (parseAll (o + (buf.length - rest.length)) rest).1,
      (parseAll (o + (buf.length - rest.length)) rest).2)
termination_by buf.length
decreasing_by
  all_goals exact parseRecord_rest_lt h

/-- `Modelled from the spec:` the top-level record scan driving `open()`:
a corrupt record in the top-level stream is fatal (spec 4.2 / 7). -/
def open_records (buf : List Nat) : Except Unit (List (Nat × List Nat × List Nat)) :=
  if (parseAll 0 buf).2 then .ok (parseAll 0 buf).1 else .error ()

/-- `Modelled from the spec:` the chunk-local scan of nested records: a
corrupt nested record truncates this chunk's contribution to the index
instead of failing (spec 4.2).  Interpretation of record headers (which
records are MessageData, and their timestamps) is abstracted by the two
function arguments. -/
def chunk_entries (isMsg : List Nat → Bool) (getStamp : List Nat → Nat)
    (buf : List Nat) : List (Nat × Nat) :=
  (parseAll 0 buf).1.filterMap (fun ohd =>
    if isMsg ohd.2.1 then some (getStamp ohd.2.1, ohd.1) else none)

/-- `Modelled from the spec:` the Index contributions of a list of chunk
data blocks, as (chunk, offset, stamp) positions. -/
def bag_index (isMsg : List Nat → Bool) (getStamp : List Nat → Nat) :
    Nat → List (List Nat) → List Pos
  | _, [] => []
  | i, ch :: rest =>
    (chunk_entries isMsg getStamp ch).map (fun so => ⟨i, so.2, so.1⟩)
      ++ bag_index isMsg getStamp (i + 1) rest

/-- The two-connection example file of spec section 8: topic "/a" with
messages at t = 1, 3, 5 and topic "/b" with messages at t = 2, 4. -/
def exBag : Bag :=
  [⟨"/a", [⟨0, 0, 1⟩, ⟨0, 10, 3⟩, ⟨0, 20, 5⟩]⟩,
   ⟨"/b", [⟨0, 5, 2⟩, ⟨0, 15, 4⟩]⟩]

instance (bag : Bag) (endT : Nat) (st : List Cursor) :
    Decidable (ValidState bag endT st) :=
  inferInstanceAs (Decidable (_ ∧ _))

theorem mem_of_getElemQ {α : Type _} {l : List α} {i : Nat} {a : α}
    (h : l[i]? = some a) : a ∈ l := by
  induction l generalizing i with
  | nil => simp at h
  | cons x xs ih =>
    cases i with
    | zero => simp at h; simp [h]
    | succ j => simp only [List.getElem?_cons_succ] at h; exact List.mem_cons_of_mem _ (ih h)

theorem drop_cons_of_getElemQ {α : Type _} {l : List α} {i : Nat} {a : α}
    (h : l[i]? = some a) : l.drop i = a :: l.drop (i + 1) := by
  induction l generalizing i with
  | nil => simp at h
  | cons x xs ih =>
    cases i with
    | zero => simp at h; simp [h]
    | succ j =>
      simp only [List.getElem?_cons_succ] at h
      simpa using ih h

theorem drop_nil_of_getElemQ_none {α : Type _} {l : List α} {i : Nat}
    (h : l[i]? = none) : l.drop i = [] := by
  induction l generalizing i with
  | nil => simp
  | cons x xs ih =>
    cases i with
    | zero => simp at h
    | succ j =>
      simp only [List.getElem?_cons_succ] at h
      simpa using ih h

theorem getD_of_getElemQ {α : Type _} {l : List α} {i : Nat} {a : α} (d : α)
    (h : l[i]? = some a) : l.getD i d = a := by
  induction l generalizing i with
  | nil => simp at h
  | cons x xs ih =>
    cases i with
    | zero => simp at h; simp [List.getD, h]
    | succ j =>
      simp only [List.getElem?_cons_succ] at h
      simpa [List.getD] using ih h

theorem filter_all_true {α : Type _} {p : α → Bool} {l : List α}
    (h : ∀ a ∈ l, p a = true) : l.filter p = l := by
  induction l with
  | nil => rfl
  | cons x xs ih =>
    have hx := h x (List.mem_cons_self _ _)
    simp [List.filter_cons, hx, ih (fun a ha => h a (List.mem_cons_of_mem _ ha))]

theorem filter_all_false {α : Type _} {p : α → Bool} {l : List α}
    (h : ∀ a ∈ l, p a = false) : l.filter p = [] := by
  induction l with
  | nil => rfl
  | cons x xs ih =>
    have hx := h x (List.mem_cons_self _ _)
    simp [List.filter_cons, hx, ih (fun a ha => h a (List.mem_cons_of_mem _ ha))]

theorem filter_of_map {α β : Type _} (f : α → β) (p : β → Bool) (l : List α) :
    (l.map f).filter p = (l.filter (fun a => p (f a))).map f := by
  induction l with
  | nil => rfl
  | cons x xs ih =>
    by_cases hx : p (f x) = true
    · simp [List.filter_cons, hx, ih]
    · simp only [Bool.not_eq_true] at hx
      simp [List.filter_cons, hx, ih]

theorem getElemQ_inj_of_nodup {α : Type _} {l : List α} {i j : Nat} {a : α}
    (hn : l.Nodup) (hi : l[i]? = some a) (hj : l[j]? = some a) : i = j := by
  induction l generalizing i j with
  | nil => simp at hi
  | cons x xs ih =>
    rcases List.nodup_cons.mp hn with ⟨hx, hxs⟩
    cases i with
    | zero =>
      cases j with
      | zero => rfl
      | succ j' =>
        simp at hi
        simp only [List.getElem?_cons_succ] at hj
        exact absurd (hi ▸ mem_of_getElemQ hj) hx
    | succ i' =>
      cases j with
      | zero =>
        simp at hj
        simp only [List.getElem?_cons_succ] at hi
        exact absurd (hj ▸ mem_of_getElemQ hi) hx
      | succ j' =>
        simp only [List.getElem?_cons_succ] at hi hj
        exact congrArg Nat.succ (ih hxs hi hj)

theorem takeLE_mem {endT : Nat} {l : List (Nat × Pos)} {x : Nat × Pos}
    (h : x ∈ takeLE endT l) : x ∈ l ∧ x.2.stamp ≤ endT := by
  induction l with
  | nil => simp [takeLE] at h
  | cons ip rest ih =>
    by_cases hip : ip.2.stamp ≤ endT
    · simp only [takeLE, if_pos hip] at h
      rcases List.mem_cons.mp h with h | h
      · subst h; exact ⟨List.mem_cons_self _ _, hip⟩
      · rcases ih h with ⟨h1, h2⟩
        exact ⟨List.mem_cons_of_mem _ h1, h2⟩
    · simp [takeLE, if_neg hip] at h

theorem takeLE_all {endT : Nat} {l : List (Nat × Pos)}
    (h : ∀ x ∈ l, x.2.stamp ≤ endT) : takeLE endT l = l := by
  induction l with
  | nil => rfl
  | cons ip rest ih =>
    simp only [takeLE, if_pos (h ip (List.mem_cons_self _ _))]
    exact congrArg _ (ih (fun x hx => h x (List.mem_cons_of_mem _ hx)))

theorem takeLE_pairwise {R : Nat × Pos → Nat × Pos → Prop} {endT : Nat}
    {l : List (Nat × Pos)} (h : List.Pairwise R l) :
    List.Pairwise R (takeLE endT l) := by
  induction l with
  | nil => exact List.Pairwise.nil
  | cons ip rest ih =>
    rcases List.pairwise_cons.mp h with ⟨hhead, htail⟩
    by_cases hip : ip.2.stamp ≤ endT
    · simp only [takeLE, if_pos hip]
      exact List.pairwise_cons.mpr
        ⟨fun x hx => hhead x (takeLE_mem hx).1, ih htail⟩
    · simp [takeLE, if_neg hip]

theorem tagFrom_mem {i : Nat} {l : List Pos} {x : Nat × Pos}
    (h : x ∈ tagFrom i l) : i ≤ x.1 ∧ l[x.1 - i]? = some x.2 := by
  induction l generalizing i with
  | nil => simp [tagFrom] at h
  | cons p rest ih =>
    simp only [tagFrom, List.mem_cons] at h
    rcases h with h | h
    · subst h; simp
    · rcases ih h with ⟨h1, h2⟩
      refine ⟨Nat.le_of_succ_le h1, ?_⟩
      have hx : x.1 - i = (x.1 - (i + 1)) + 1 := by omega
      rw [hx]
      simpa using h2

theorem tagFrom_pairwise {l : List Pos} (hs : StampsSorted l) (i : Nat) :
    List.Pairwise (fun x y : Nat × Pos => x.1 < y.1 ∧ x.2.stamp ≤ y.2.stamp)
      (tagFrom i l) := by
  induction l generalizing i with
  | nil => exact List.Pairwise.nil
  | cons p rest ih =>
    rcases List.pairwise_cons.mp hs with ⟨hhead, htail⟩
    refine List.pairwise_cons.mpr ⟨fun y hy => ?_, ih htail (i + 1)⟩
    rcases tagFrom_mem hy with ⟨h1, h2⟩
    exact ⟨Nat.lt_of_lt_of_le (Nat.lt_succ_self i) h1,
      hhead y.2 (mem_of_getElemQ h2)⟩

/-- Unfolding of `remT` at a live cursor. -/
theorem remT_cons {bag : Bag} {endT : Nat} {c : Cursor} {p : Pos}
    (hp : (posList bag c.conn)[c.idx]? = some p) (hle : p.stamp ≤ endT) :
    remT bag endT c =
      ⟨c.conn, c.idx, p⟩ :: remT bag endT ⟨c.conn, c.idx + 1⟩ := by
  unfold remT
  rw [drop_cons_of_getElemQ hp]
  simp [tagFrom, takeLE, hle]

/-- A dead cursor contributes nothing. -/
theorem remT_dead {bag : Bag} {endT : Nat} {c : Cursor}
    (h : alive bag endT c = false)  : remT bag endT c = [] := by
  unfold remT
  unfold alive at h
  cases hp : (posList bag c.conn)[c.idx]? with
  | none => rw [drop_nil_of_getElemQ_none hp]; rfl
  | some p =>
    rw [hp] at h
    simp only [decide_eq_false_iff_not, Nat.not_le] at h
    rw [drop_cons_of_getElemQ hp]
    simp [tagFrom, takeLE, Nat.not_le_of_lt h]

/-- A live cursor contributes at least its head. -/
theorem remT_ne_nil {bag : Bag} {endT : Nat} {c : Cursor}
    (h : alive bag endT c = true) : remT bag endT c ≠ [] := by
  unfold alive at h
  cases hp : (posList bag c.conn)[c.idx]? with
  | none => rw [hp] at h; simp at h
  | some p =>
    rw [hp] at h
    simp only [decide_eq_true_eq] at h
    rw [remT_cons hp h]
    simp

/-- Characterization of the elements of `remT`. -/
theorem remT_mem {bag : Bag} {endT : Nat} {c : Cursor} {e : Emission}
    (h : e ∈ remT bag endT c) :
    e.conn = c.conn ∧ c.idx ≤ e.idx ∧
      (posList bag c.conn)[e.idx]? = some e.pos ∧ e.pos.stamp ≤ endT := by
  unfold remT at h
  rcases List.mem_map.mp h with ⟨ip, hip, he⟩
  rcases takeLE_mem hip with ⟨hmem, hst⟩
  rcases tagFrom_mem hmem with ⟨h1, h2⟩
  subst he
  refine ⟨rfl, h1, ?_, hst⟩
  have hd : (posList bag c.conn).drop c.idx = [] ∨
      ∃ q, (posList bag c.conn)[c.idx]? = some q := by
    cases hq : (posList bag c.conn)[c.idx]? with
    | none => exact Or.inl (drop_nil_of_getElemQ_none hq)
    | some q => exact Or.inr ⟨q, rfl⟩
  -- relate indexing into the dropped list with absolute indexing
  have key : ∀ (l : List Pos) (k j : Nat), k ≤ j → (l.drop k)[j - k]? = l[j]? := by
    intro l
    induction l with
    | nil => intro k j _; simp
    | cons q qs ih =>
      intro k j hkj
      cases k with
      | zero => simp
      | succ k' =>
        cases j with
        | zero => omega
        | succ j' =>
          simp only [List.drop_succ_cons, List.getElem?_cons_succ]
          have hj : j' + 1 - (k' + 1) = j' - k' := by omega
          rw [hj]
          exact ih k' j' (Nat.le_of_succ_le_succ hkj)
  have := key (posList bag c.conn) c.idx ip.1 h1
  rw [← this]
  exact h2

theorem ELt_asymm {a b : Emission} (h1 : ELt a b) (h2 : ELt b a) : False := by
  unfold ELt at h1 h2
  rcases h1 with h1 | ⟨hs1, h1 | ⟨hc1, h1⟩⟩ <;>
    rcases h2 with h2 | ⟨hs2, h2 | ⟨hc2, h2⟩⟩ <;> omega

theorem remT_sorted {bag : Bag} {endT : Nat} {c : Cursor}
    (hs : StampsSorted (posList bag c.conn)) :
    List.Pairwise ELt (remT bag endT c) := by
  unfold remT
  rw [List.pairwise_map]
  have hdrop : StampsSorted ((posList bag c.conn).drop c.idx) :=
    (List.pairwise_iff_forall_sublist.mpr
      (fun hsub => List.pairwise_iff_forall_sublist.mp hs
        (hsub.trans (List.drop_sublist _ _))))
  have := tagFrom_pairwise hdrop c.idx
  refine takeLE_pairwise (this.imp ?_)
  rintro ⟨i, p⟩ ⟨j, q⟩ ⟨hij, hst⟩
  rcases Nat.lt_or_ge p.stamp q.stamp with h | h
  · exact Or.inl h
  · exact Or.inr ⟨Nat.le_antisymm hst h, Or.inr ⟨rfl, hij⟩⟩

/-! ## Properties of `pickMin` and `bump` -/

theorem pickMin_none_iff {bag : Bag} {st : List Cursor} :
    pickMin bag st = none ↔ st = [] := by
  cases st with
  | nil => simp [pickMin]
  | cons c rest =>
    simp only [pickMin]
    cases pickMin bag rest with
    | none => simp
    | some c2 =>
      by_cases h : PairLt (keyOf bag c2) (keyOf bag c) <;> simp [h]

theorem pickMin_mem {bag : Bag} {st : List Cursor} {c : Cursor}
    (h : pickMin bag st = some c) : c ∈ st := by
  induction st with
  | nil => simp [pickMin] at h
  | cons x rest ih =>
    simp only [pickMin] at h
    cases hr : pickMin bag rest with
    | none =>
      rw [hr] at h
      have h' : some x = some c := h
      simp only [Option.some.injEq] at h'
      simp [h'.symm]
    | some c2 =>
      rw [hr] at h
      have h' : (if PairLt (keyOf bag c2) (keyOf bag x) then some c2 else some x)
          = some c := h
      by_cases hc : PairLt (keyOf bag c2) (keyOf bag x)
      · rw [if_pos hc] at h'
        simp only [Option.some.injEq] at h'
        exact List.mem_cons_of_mem _ (ih (h' ▸ hr))
      · rw [if_neg hc] at h'
        simp only [Option.some.injEq] at h'
        simp [h'.symm]

theorem PairLe_refl (a : Nat × Nat) : PairLe a a := Or.inr ⟨rfl, Nat.le_refl _⟩

theorem PairLe_trans {a b c : Nat × Nat} (h1 : PairLe a b) (h2 : PairLe b c) :
    PairLe a c := by
  rcases h1 with h1 | ⟨h1, h1'⟩ <;> rcases h2 with h2 | ⟨h2, h2'⟩ <;>
    first
    | exact Or.inl (by omega)
    | exact Or.inr ⟨by omega, by omega⟩

theorem PairLe_of_not_lt {a b : Nat × Nat} (h : ¬ PairLt a b) : PairLe b a := by
  unfold PairLt at h
  push_neg at h
  rcases Nat.lt_or_ge b.1 a.1 with h1 | h1
  · exact Or.inl h1
  · rcases Nat.lt_or_ge a.1 b.1 with h2 | h2
    · exact absurd h2 (by omega)
    · exact Or.inr ⟨by omega, by
        have := h.2 (by omega)
        omega⟩

theorem PairLe_of_lt {a b : Nat × Nat} (h : PairLt a b) : PairLe a b := by
  rcases h with h | ⟨h1, h2⟩
  · exact Or.inl h
  · exact Or.inr ⟨h1, Nat.le_of_lt h2⟩

theorem pickMin_min {bag : Bag} : ∀ {st : List Cursor} {c : Cursor},
    pickMin bag st = some c →
    ∀ x ∈ st, PairLe (keyOf bag c) (keyOf bag x) := by
  intro st
  induction st with
  | nil => intro c h; simp [pickMin] at h
  | cons y rest ih =>
    intro c h
    simp only [pickMin] at h
    cases hr : pickMin bag rest with
    | none =>
      rw [hr] at h
      have h' : some y = some c := h
      simp only [Option.some.injEq] at h'
      subst h'
      have hrest : rest = [] := pickMin_none_iff.mp hr
      subst hrest
      intro x hx
      rcases List.mem_cons.mp hx with hx | hx
      · subst hx; exact PairLe_refl _
      · simp at hx
    | some c2 =>
      rw [hr] at h
      have h' : (if PairLt (keyOf bag c2) (keyOf bag y) then some c2 else some y)
          = some c := h
      by_cases hc : PairLt (keyOf bag c2) (keyOf bag y)
      · rw [if_pos hc] at h'
        simp only [Option.some.injEq] at h'
        subst h'
        intro x hx
        rcases List.mem_cons.mp hx with hx | hx
        · subst hx; exact PairLe_of_lt hc
        · exact ih hr x hx
      · rw [if_neg hc] at h'
        simp only [Option.some.injEq] at h'
        subst h'
        intro x hx
        rcases List.mem_cons.mp hx with hx | hx
        · subst hx; exact PairLe_refl _
        · exact PairLe_trans (PairLe_of_not_lt hc) (ih hr x hx)

/-- The definitive shape of a `bump`: the state splits around the advanced
cursor, which is replaced by its advance (or dropped when dead); all other
entries belong to other connections. -/
theorem bump_split {bag : Bag} {endT : Nat} {st : List Cursor} {c : Cursor}
    (hpw : List.Pairwise (fun a b => a.conn < b.conn) st) (hc : c ∈ st) :
    ∃ pre post, st = pre ++ c :: post ∧
      bump bag endT c.conn st =
        pre ++ (if alive bag endT ⟨c.conn, c.idx + 1⟩ then [Cursor.mk c.conn (c.idx + 1)] else []) ++ post ∧
      (∀ y ∈ pre, y.conn < c.conn) ∧ (∀ y ∈ post, c.conn < y.conn) := by
  induction st with
  | nil => simp at hc
  | cons x rest ih =>
    rcases List.pairwise_cons.mp hpw with ⟨hhead, htail⟩
    rcases List.mem_cons.mp hc with hx | hx
    · subst hx
      refine ⟨[], rest, rfl, ?_, by simp, hhead⟩
      simp only [bump, if_pos rfl]
      by_cases ha : alive bag endT ⟨c.conn, c.idx + 1⟩ = true
      · simp [ha]
      · simp only [Bool.not_eq_true] at ha
        simp [ha]
    · have hxc : x.conn < c.conn := hhead c hx
      rcases ih htail hx with ⟨pre, post, h1, h2, h3, h4⟩
      refine ⟨x :: pre, post, by simp [h1], ?_, ?_, h4⟩
      · simp only [bump, if_neg (by omega : ¬ x.conn = c.conn)]
        simp [h2]
      · intro y hy
        rcases List.mem_cons.mp hy with hy | hy
        · subst hy; exact hxc
        · exact h3 y hy

theorem pairwise_mid {pre post mid : List Cursor} {k : Nat}
    (hpre : List.Pairwise (fun a b => a.conn < b.conn) pre)
    (hpost : List.Pairwise (fun a b => a.conn < b.conn) post)
    (hcross : ∀ a ∈ pre, ∀ b ∈ post, a.conn < b.conn)
    (h1 : ∀ y ∈ pre, y.conn < k) (h2 : ∀ y ∈ post, k < y.conn)
    (hmid : ∀ y ∈ mid, y.conn = k)
    (hm : List.Pairwise (fun a b => a.conn < b.conn) mid) :
    List.Pairwise (fun a b => a.conn < b.conn) (pre ++ mid ++ post) := by
  rw [List.append_assoc, List.pairwise_append]
  refine ⟨hpre, ?_, ?_⟩
  · rw [List.pairwise_append]
    refine ⟨hm, hpost, fun a ha b hb => ?_⟩
    have := hmid a ha
    have := h2 b hb
    omega
  · intro a ha b hb
    rcases List.mem_append.mp hb with hb | hb
    · have := hmid b hb
      have := h1 a ha
      omega
    · exact hcross a ha b hb

theorem ValidState_bump {bag : Bag} {endT : Nat} {st : List Cursor} {c : Cursor}
    (hv : ValidState bag endT st) (hc : c ∈ st) :
    ValidState bag endT (bump bag endT c.conn st) := by
  rcases hv with ⟨hpw, hal⟩
  rcases @bump_split bag endT _ _ hpw hc with ⟨pre, post, h1, h2, h3, h4⟩
  have hsplit := hpw
  rw [h1, List.pairwise_append] at hsplit
  rcases hsplit with ⟨hpre, hcpost, hcross⟩
  have hpost : List.Pairwise (fun a b => a.conn < b.conn) post :=
    (List.pairwise_cons.mp hcpost).2
  have hcross' : ∀ a ∈ pre, ∀ b ∈ post, a.conn < b.conn :=
    fun a ha b hb => hcross a ha b (List.mem_cons_of_mem _ hb)
  constructor
  · rw [h2]
    refine pairwise_mid hpre hpost hcross' h3 h4 ?_ ?_
    · intro y hy
      by_cases ha : alive bag endT ⟨c.conn, c.idx + 1⟩ = true
      · rw [if_pos ha] at hy
        rcases List.mem_singleton.mp hy with rfl
        rfl
      · simp only [Bool.not_eq_true] at ha
        simp [ha] at hy
    · by_cases ha : alive bag endT ⟨c.conn, c.idx + 1⟩ = true
      · rw [if_pos ha]; simp
      · simp only [Bool.not_eq_true] at ha
        simp [ha]
  · intro y hy
    rw [h2] at hy
    rcases List.mem_append.mp hy with hy | hy
    · rcases List.mem_append.mp hy with hy | hy
      · exact hal y (h1 ▸ List.mem_append.mpr (Or.inl hy))
      · by_cases ha : alive bag endT ⟨c.conn, c.idx + 1⟩ = true
        · rw [if_pos ha] at hy
          rcases List.mem_singleton.mp hy with rfl
          exact ha
        · simp only [Bool.not_eq_true] at ha
          simp [ha] at hy
    · exact hal y (h1 ▸ List.mem_append.mpr (Or.inr (List.mem_cons_of_mem _ hy)))

theorem alive_idx_lt {bag : Bag} {endT : Nat} {c : Cursor}
    (h : alive bag endT c = true) : c.idx < (posList bag c.conn).length := by
  unfold alive at h
  cases hp : (posList bag c.conn)[c.idx]? with
  | none => rw [hp] at h; simp at h
  | some p => exact (List.getElem?_eq_some.mp hp).1

theorem weight_bump_lt {bag : Bag} {endT : Nat} {st : List Cursor} {c : Cursor}
    (hv : ValidState bag endT st) (hc : c ∈ st) :
    weight bag (bump bag endT c.conn st) < weight bag st := by
  rcases hv with ⟨hpw, hal⟩
  rcases @bump_split bag endT _ _ hpw hc with ⟨pre, post, h1, h2, _h3, _h4⟩
  have hidx : c.idx < (posList bag c.conn).length :=
    alive_idx_lt (hal c hc)
  rw [h2]
  rw [h1]
  unfold weight
  by_cases ha : alive bag endT ⟨c.conn, c.idx + 1⟩ = true
  · rw [if_pos ha]
    simp only [List.map_append, List.sum_append, List.map_cons, List.sum_cons,
      List.map_nil, List.sum_nil]
    omega
  · simp only [Bool.not_eq_true] at ha
    simp only [ha, Bool.false_eq_true, if_false]
    simp only [List.map_append, List.sum_append, List.map_cons, List.sum_cons,
      List.map_nil, List.sum_nil]
    omega

theorem weight_zero_nil {bag : Bag} {endT : Nat} {st : List Cursor}
    (hv : ValidState bag endT st) (hw : weight bag st = 0) : st = [] := by
  cases st with
  | nil => rfl
  | cons c rest =>
    exfalso
    have hidx : c.idx < (posList bag c.conn).length :=
      alive_idx_lt (hv.2 c (List.mem_cons_self _ _))
    unfold weight at hw
    simp only [List.map_cons, List.sum_cons] at hw
    omega

/-! ## The merge run is a sorted permutation of the remaining streams -/

theorem getD_of_none {α : Type _} {l : List α} {i : Nat} (d : α)
    (h : l[i]? = none) : l.getD i d = d := by
  induction l generalizing i with
  | nil => simp [List.getD]
  | cons x xs ih =>
    cases i with
    | zero => simp at h
    | succ j =>
      simp only [List.getElem?_cons_succ] at h
      simpa [List.getD] using ih h

theorem sorted_posList {bag : Bag} (hs : SortedBag bag) (cn : Nat) :
    StampsSorted (posList bag cn) := by
  unfold posList
  cases hq : bag[cn]? with
  | none =>
    rw [getD_of_none _ hq]
    exact List.Pairwise.nil
  | some x =>
    rw [getD_of_getElemQ _ hq]
    exact hs x (mem_of_getElemQ hq)

theorem nodup_posList {bag : Bag} (hn : NodupBag bag) (cn : Nat) :
    (posList bag cn).Nodup := by
  unfold posList
  cases hq : bag[cn]? with
  | none =>
    rw [getD_of_none _ hq]
    exact List.nodup_nil
  | some x =>
    rw [getD_of_getElemQ _ hq]
    exact hn x (mem_of_getElemQ hq)

theorem sorted_stamp_le {l : List Pos} (hs : StampsSorted l) :
    ∀ {i j : Nat} {p q : Pos}, i ≤ j → l[i]? = some p → l[j]? = some q →
    p.stamp ≤ q.stamp := by
  induction l with
  | nil => intro i j p q _ hi _; simp at hi
  | cons x rest ih =>
    rcases List.pairwise_cons.mp hs with ⟨hhead, htail⟩
    intro i j p q hij hi hj
    cases i with
    | zero =>
      simp only [List.getElem?_cons_zero, Option.some.injEq] at hi
      subst hi
      cases j with
      | zero =>
        simp only [List.getElem?_cons_zero, Option.some.injEq] at hj
        subst hj; exact Nat.le_refl _
      | succ j' =>
        simp only [List.getElem?_cons_succ] at hj
        exact hhead q (mem_of_getElemQ hj)
    | succ i' =>
      cases j with
      | zero => omega
      | succ j' =>
        simp only [List.getElem?_cons_succ] at hi hj
        exact ih htail (Nat.le_of_succ_le_succ hij) hi hj

theorem alive_head {bag : Bag} {endT : Nat} {c : Cursor}
    (h : alive bag endT c = true) :
    ∃ p, (posList bag c.conn)[c.idx]? = some p ∧ p.stamp ≤ endT ∧
      emis bag c = ⟨c.conn, c.idx, p⟩ ∧ stampAt bag c = p.stamp := by
  unfold alive at h
  cases hp : (posList bag c.conn)[c.idx]? with
  | none => rw [hp] at h; simp at h
  | some p =>
    rw [hp] at h
    simp only [decide_eq_true_eq] at h
    exact ⟨p, rfl, h, by simp [emis, hp], by simp [stampAt, hp]⟩

theorem remT_step {bag : Bag} {endT : Nat} {c : Cursor}
    (h : alive bag endT c = true) :
    remT bag endT c = emis bag c :: remT bag endT ⟨c.conn, c.idx + 1⟩ := by
  rcases alive_head h with ⟨p, hp, hle, hemis, _⟩
  rw [remT_cons hp hle, hemis]

theorem stRem_append (bag : Bag) (endT : Nat) (l1 l2 : List Cursor) :
    stRem bag endT (l1 ++ l2) = stRem bag endT l1 ++ stRem bag endT l2 := by
  induction l1 with
  | nil => rfl
  | cons c rest ih => simp [stRem, ih]

theorem stRem_mem {bag : Bag} {endT : Nat} {st : List Cursor} {e : Emission}
    (h : e ∈ stRem bag endT st) : ∃ cur ∈ st, e ∈ remT bag endT cur := by
  induction st with
  | nil => simp [stRem] at h
  | cons c rest ih =>
    simp only [stRem] at h
    rcases List.mem_append.mp h with h | h
    · exact ⟨c, List.mem_cons_self _ _, h⟩
    · rcases ih h with ⟨cur, h1, h2⟩
      exact ⟨cur, List.mem_cons_of_mem _ h1, h2⟩

theorem stRem_bump_perm {bag : Bag} {endT : Nat} {st : List Cursor} {c : Cursor}
    (hv : ValidState bag endT st) (hc : c ∈ st) :
    (stRem bag endT st).Perm
      (emis bag c :: stRem bag endT (bump bag endT c.conn st)) := by
  rcases @bump_split bag endT _ _ hv.1 hc with ⟨pre, post, h1, h2, _, _⟩
  have hal : alive bag endT c = true := hv.2 c hc
  have hmid : stRem bag endT
      (if alive bag endT ⟨c.conn, c.idx + 1⟩ then [Cursor.mk c.conn (c.idx + 1)] else [])
      = remT bag endT ⟨c.conn, c.idx + 1⟩ := by
    by_cases ha : alive bag endT ⟨c.conn, c.idx + 1⟩ = true
    · rw [if_pos ha]; simp [stRem]
    · simp only [Bool.not_eq_true] at ha
      simp [ha, stRem, remT_dead ha]
  have hL : stRem bag endT st
      = stRem bag endT pre ++
        (emis bag c :: (remT bag endT ⟨c.conn, c.idx + 1⟩ ++ stRem bag endT post)) := by
    rw [h1, stRem_append]
    simp only [stRem]
    rw [remT_step hal]
    simp
  have hR : stRem bag endT (bump bag endT c.conn st)
      = stRem bag endT pre ++
        (remT bag endT ⟨c.conn, c.idx + 1⟩ ++ stRem bag endT post) := by
    rw [h2, stRem_append, stRem_append, hmid]
    simp
  rw [hL, hR]
  exact List.perm_middle

theorem run_perm {bag : Bag} {endT : Nat} :
    ∀ (n : Nat) (st : List Cursor), ValidState bag endT st →
      weight bag st ≤ n →
      (runFuel bag endT n st).Perm (stRem bag endT st) := by
  intro n
  induction n with
  | zero =>
    intro st hv hw
    have : st = [] := weight_zero_nil hv (Nat.le_zero.mp hw)
    subst this
    simp [runFuel, stRem]
  | succ n ih =>
    intro st hv hw
    cases hp : pickMin bag st with
    | none =>
      have : st = [] := pickMin_none_iff.mp hp
      subst this
      simp [runFuel, stRem, pickMin]
    | some c =>
      have hc : c ∈ st := pickMin_mem hp
      simp only [runFuel, hp]
      have hv' := ValidState_bump hv hc
      have hw' : weight bag (bump bag endT c.conn st) ≤ n := by
        have := weight_bump_lt hv hc
        omega
      exact ((ih _ hv' hw').cons (emis bag c)).trans (stRem_bump_perm hv hc).symm

/-! ## The merge run is strictly sorted by (timestamp, connection, index) -/

theorem ELt_mk {cn i : Nat} {p : Pos} {x : Emission}
    (h : p.stamp < x.pos.stamp ∨
      (p.stamp = x.pos.stamp ∧ (cn < x.conn ∨ (cn = x.conn ∧ i < x.idx)))) :
    ELt ⟨cn, i, p⟩ x := h

theorem emis_ELt_bump {bag : Bag} {endT : Nat} {st : List Cursor} {c : Cursor}
    (hs : SortedBag bag) (hv : ValidState bag endT st)
    (hp : pickMin bag st = some c) :
    ∀ x ∈ stRem bag endT (bump bag endT c.conn st), ELt (emis bag c) x := by
  intro x hx
  have hc : c ∈ st := pickMin_mem hp
  rcases alive_head (hv.2 c hc) with ⟨p, hpc, _hple, hemis, hstamp⟩
  rcases stRem_mem hx with ⟨cur, hcur, hxrem⟩
  rcases remT_mem hxrem with ⟨hxconn, hxidx, hxpos, _hxle⟩
  rcases @bump_split bag endT _ _ hv.1 hc with ⟨pre, post, h1, h2, h3, h4⟩
  rw [h2] at hcur
  have split_mem : (cur ∈ st ∧ cur.conn ≠ c.conn) ∨ cur = Cursor.mk c.conn (c.idx + 1) := by
    rcases List.mem_append.mp hcur with hm | hm
    · rcases List.mem_append.mp hm with hm | hm
      · refine Or.inl ⟨h1 ▸ List.mem_append.mpr (Or.inl hm), ?_⟩
        have := h3 cur hm
        omega
      · by_cases ha : alive bag endT ⟨c.conn, c.idx + 1⟩ = true
        · rw [if_pos ha] at hm
          exact Or.inr (List.mem_singleton.mp hm)
        · simp only [Bool.not_eq_true] at ha
          simp [ha] at hm
    · refine Or.inl ⟨h1 ▸ List.mem_append.mpr (Or.inr (List.mem_cons_of_mem _ hm)), ?_⟩
      have := h4 cur hm
      omega
  rw [hemis]
  refine ELt_mk ?_
  rcases split_mem with ⟨hmem, hne⟩ | hadv
  · -- a different connection: the pick was (timestamp, conn)-minimal
    rcases alive_head (hv.2 cur hmem) with ⟨q, hq, _hqle, _hec, hqstamp⟩
    have hmin := pickMin_min hp cur hmem
    rw [keyOf, keyOf, hstamp, hqstamp] at hmin
    have hqx : q.stamp ≤ x.pos.stamp :=
      sorted_stamp_le (sorted_posList hs cur.conn) hxidx hq hxpos
    have hconn : x.conn = cur.conn := hxconn
    rcases Nat.lt_or_ge p.stamp x.pos.stamp with hlt | hge
    · exact Or.inl hlt
    · rcases hmin with hmin | ⟨heq, hle⟩
      · have hm2 : p.stamp < q.stamp := hmin
        omega
      · have heq2 : p.stamp = q.stamp := heq
        have hle2 : c.conn ≤ cur.conn := hle
        exact Or.inr ⟨by omega, Or.inl (by omega)⟩
  · -- the advanced cursor of the same connection
    subst hadv
    have hconn : x.conn = c.conn := hxconn
    have hidx : c.idx + 1 ≤ x.idx := hxidx
    have hx2 : (posList bag c.conn)[x.idx]? = some x.pos := hxpos
    have hpx : p.stamp ≤ x.pos.stamp :=
      sorted_stamp_le (sorted_posList hs c.conn) (by omega : c.idx ≤ x.idx) hpc hx2
    rcases Nat.lt_or_ge p.stamp x.pos.stamp with hlt | hge
    · exact Or.inl hlt
    · exact Or.inr ⟨by omega, Or.inr ⟨by omega, by omega⟩⟩

theorem run_sorted {bag : Bag} {endT : Nat} (hs : SortedBag bag) :
    ∀ (n : Nat) (st : List Cursor), ValidState bag endT st →
      weight bag st ≤ n →
      List.Pairwise ELt (runFuel bag endT n st) := by
  intro n
  induction n with
  | zero => intro st _ _; simp [runFuel]
  | succ n ih =>
    intro st hv hw
    cases hp : pickMin bag st with
    | none => simp [runFuel, hp]
    | some c =>
      have hc : c ∈ st := pickMin_mem hp
      simp only [runFuel, hp]
      have hv' := ValidState_bump hv hc
      have hw' : weight bag (bump bag endT c.conn st) ≤ n := by
        have := weight_bump_lt hv hc
        omega
      refine List.pairwise_cons.mpr ⟨fun x hx => ?_, ih _ hv' hw'⟩
      have hx' : x ∈ stRem bag endT (bump bag endT c.conn st) :=
        (run_perm n _ hv' hw').mem_iff.mp hx
      exact emis_ELt_bump hs hv hp x hx'

/-! ## A strictly sorted permutation is unique -/

theorem perm_ELt_unique : ∀ {l1 l2 : List Emission}, l1.Perm l2 →
    List.Pairwise ELt l1 → List.Pairwise ELt l2 → l1 = l2 := by
  intro l1
  induction l1 with
  | nil =>
    intro l2 h _ _
    cases l2 with
    | nil => rfl
    | cons b t2 => have := h.length_eq; simp at this
  | cons a t1 ih =>
    intro l2 h h1 h2
    cases l2 with
    | nil => have := h.length_eq; simp at this
    | cons b t2 =>
      rcases List.pairwise_cons.mp h1 with ⟨ha1, ht1⟩
      rcases List.pairwise_cons.mp h2 with ⟨hb2, ht2⟩
      by_cases hab : a = b
      · subst hab
        have := ih (h.cons_inv) ht1 ht2
        rw [this]
      · exfalso
        have hamem : a ∈ b :: t2 := h.mem_iff.mp (List.mem_cons_self _ _)
        have hbmem : b ∈ a :: t1 := h.mem_iff.mpr (List.mem_cons_self _ _)
        rcases List.mem_cons.mp hamem with h' | h'
        · exact hab h'
        · rcases List.mem_cons.mp hbmem with h'' | h''
          · exact hab h''.symm
          · exact ELt_asymm (ha1 b h'') (hb2 a h')

theorem initCursors_pairwise {bag : Bag} {v : view} (hw : ViewWf bag v) :
    List.Pairwise (fun a b => a.conn < b.conn) (initCursors bag v) := by
  unfold initCursors
  rw [List.pairwise_map]
  exact hw

theorem ValidState_init {bag : Bag} {v : view} (hw : ViewWf bag v) :
    ValidState bag v.m_end_time (initState bag v) := by
  constructor
  · exact List.Pairwise.sublist (List.filter_sublist _) (initCursors_pairwise hw)
  · intro c hc
    exact (List.mem_filter.mp hc).2

theorem stRem_filter_alive (bag : Bag) (endT : Nat) (l : List Cursor) :
    stRem bag endT (l.filter (alive bag endT)) = stRem bag endT l := by
  induction l with
  | nil => rfl
  | cons c rest ih =>
    by_cases hc : alive bag endT c = true
    · simp [List.filter_cons, hc, stRem, ih]
    · simp only [Bool.not_eq_true] at hc
      simp [List.filter_cons, hc, stRem, ih, remT_dead hc]

theorem viewRun_perm {bag : Bag} {v : view} (hw : ViewWf bag v) :
    (viewRun bag v).Perm (stRem bag v.m_end_time (initCursors bag v)) := by
  unfold viewRun
  refine (run_perm _ _ (ValidState_init hw) (Nat.le_refl _)).trans ?_
  unfold initState
  rw [stRem_filter_alive]

theorem viewRun_sorted {bag : Bag} {v : view} (hs : SortedBag bag)
    (hw : ViewWf bag v) : List.Pairwise ELt (viewRun bag v) :=
  run_sorted hs _ _ (ValidState_init hw) (Nat.le_refl _)

theorem ViewWf_of_none {bag : Bag} {v : view} (h : v.m_connections = none) :
    ViewWf bag v := by
  unfold ViewWf selectedConns
  rw [h]
  simpa using List.pairwise_lt_range bag.length

theorem ViewWf_set_topics (bag : Bag) (v : view) (topics : List String) :
    ViewWf bag (set_topics bag v topics) := by
  unfold ViewWf selectedConns set_topics
  simp only [Option.getD_some]
  exact List.Pairwise.sublist (List.filter_sublist _)
    (List.pairwise_lt_range bag.length)

/-! ## Seeking + cutting equals filtering, per connection -/

theorem seek_take_eq_filter {a b : Nat} :
    ∀ (l : List Pos), StampsSorted l → ∀ i : Nat,
      takeLE b (tagFrom (i + l.countP (fun p => decide (p.stamp < a)))
        (l.drop (l.countP (fun p => decide (p.stamp < a)))))
      = (tagFrom i l).filter (fun ip => decide (a ≤ ip.2.stamp ∧ ip.2.stamp ≤ b)) := by
  intro l
  induction l with
  | nil => intro _ i; simp [tagFrom, takeLE]
  | cons p rest ih =>
    intro hs i
    rcases List.pairwise_cons.mp hs with ⟨hhead, htail⟩
    by_cases hpa : p.stamp < a
    · have hc : (p :: rest).countP (fun q => decide (q.stamp < a))
          = rest.countP (fun q => decide (q.stamp < a)) + 1 := by
        simp [List.countP_cons, hpa]
      rw [hc]
      have hd : (p :: rest).drop (rest.countP (fun q => decide (q.stamp < a)) + 1)
          = rest.drop (rest.countP (fun q => decide (q.stamp < a))) := rfl
      rw [hd]
      have harith : i + (rest.countP (fun q => decide (q.stamp < a)) + 1)
          = (i + 1) + rest.countP (fun q => decide (q.stamp < a)) := by omega
      rw [harith]
      rw [ih htail (i + 1)]
      have hfail : ¬ (a ≤ p.stamp ∧ p.stamp ≤ b) := by omega
      simp [tagFrom, List.filter_cons, hfail]
    · have hnone : ∀ q ∈ (p :: rest), ¬ (decide (q.stamp < a) = true) := by
        intro q hq
        rcases List.mem_cons.mp hq with hq | hq
        · subst hq; simpa using hpa
        · have := hhead q hq
          simp only [decide_eq_true_eq]
          omega
      have hc : (p :: rest).countP (fun q => decide (q.stamp < a)) = 0 :=
        List.countP_eq_zero.mpr hnone
      have hcr : rest.countP (fun q => decide (q.stamp < a)) = 0 :=
        List.countP_eq_zero.mpr (fun q hq => hnone q (List.mem_cons_of_mem _ hq))
      rw [hc]
      simp only [List.drop_zero, Nat.add_zero]
      by_cases hpb : p.stamp ≤ b
      · have hok : a ≤ p.stamp ∧ p.stamp ≤ b := ⟨by omega, hpb⟩
        simp only [tagFrom, takeLE, if_pos hpb, List.filter_cons, decide_eq_true_eq]
        rw [if_pos hok]
        have := ih htail (i + 1)
        rw [hcr] at this
        simp only [List.drop_zero, Nat.add_zero] at this
        rw [this]
      · have hfail : ¬ (a ≤ p.stamp ∧ p.stamp ≤ b) := by omega
        simp only [tagFrom, takeLE, if_neg hpb, List.filter_cons, decide_eq_true_eq]
        rw [if_neg hfail]
        symm
        refine filter_all_false ?_
        intro ip hip
        rcases tagFrom_mem hip with ⟨_, hmem⟩
        have hq : ip.2 ∈ rest := mem_of_getElemQ hmem
        have := hhead ip.2 hq
        simp only [decide_eq_false_iff_not]
        omega

/-! ## Whole-file timestamp bounds -/

theorem mem_allStamps_of_mem {bag : Bag} {conn : Conn} {p : Pos}
    (hc : conn ∈ bag) (hp : p ∈ conn.positions) : p.stamp ∈ allStamps bag := by
  induction bag with
  | nil => simp at hc
  | cons x rest ih =>
    simp only [allStamps]
    rcases List.mem_cons.mp hc with h | h
    · subst h
      exact List.mem_append.mpr (Or.inl (List.mem_map.mpr ⟨p, hp, rfl⟩))
    · exact List.mem_append.mpr (Or.inr (ih h))

theorem stamp_mem_allStamps {bag : Bag} {cn : Nat} {p : Pos}
    (hp : p ∈ posList bag cn) : p.stamp ∈ allStamps bag := by
  unfold posList at hp
  cases hq : bag[cn]? with
  | none => rw [getD_of_none _ hq] at hp; simp at hp
  | some conn =>
    rw [getD_of_getElemQ _ hq] at hp
    exact mem_allStamps_of_mem (mem_of_getElemQ hq) hp

theorem foldl_min_le : ∀ (l : List Nat) (acc : Nat),
    l.foldl Nat.min acc ≤ acc ∧ ∀ x ∈ l, l.foldl Nat.min acc ≤ x := by
  intro l
  induction l with
  | nil => intro acc; exact ⟨Nat.le_refl _, by simp⟩
  | cons y rest ih =>
    intro acc
    simp only [List.foldl_cons]
    rcases ih (Nat.min acc y) with ⟨h1, h2⟩
    refine ⟨Nat.le_trans h1 (Nat.min_le_left _ _), ?_⟩
    intro x hx
    rcases List.mem_cons.mp hx with hx | hx
    · subst hx; exact Nat.le_trans h1 (Nat.min_le_right _ _)
    · exact h2 x hx

theorem le_foldr_max : ∀ (l : List Nat) (acc : Nat), ∀ x ∈ l, x ≤ l.foldr Nat.max acc := by
  intro l
  induction l with
  | nil => intro acc x hx; simp at hx
  | cons y rest ih =>
    intro acc x hx
    simp only [List.foldr_cons]
    rcases List.mem_cons.mp hx with hx | hx
    · subst hx; exact Nat.le_max_left _ _
    · exact Nat.le_trans (ih acc x hx) (Nat.le_max_right _ _)

theorem start_le_stamp {bag : Bag} {s : Nat} (h : s ∈ allStamps bag) :
    start_timestamp bag ≤ s := by
  unfold start_timestamp
  cases hA : allStamps bag with
  | nil => rw [hA] at h; simp at h
  | cons s0 rest =>
    rw [hA] at h
    rcases List.mem_cons.mp h with h | h
    · subst h; exact (foldl_min_le rest s).1
    · exact (foldl_min_le rest s0).2 s h

theorem stamp_le_end {bag : Bag} {s : Nat} (h : s ∈ allStamps bag) :
    s ≤ end_timestamp bag := by
  unfold end_timestamp
  exact le_foldr_max _ 0 s h

/-- `start_timestamp() ≤ end_timestamp()` (vacuously for an empty file,
where both default to 0). -/
theorem start_le_end (bag : Bag) : start_timestamp bag ≤ end_timestamp bag := by
  cases hA : allStamps bag with
  | nil =>
    unfold start_timestamp end_timestamp
    rw [hA]
    simp
  | cons s0 rest =>
    have h0 : s0 ∈ allStamps bag := by rw [hA]; exact List.mem_cons_self _ _
    exact Nat.le_trans (start_le_stamp h0) (stamp_le_end h0)

/-! ## Time-bound and topic-filter equalities on the remaining streams -/

theorem remT_timebound {bag : Bag} (hs : SortedBag bag) (a b : Nat) (c : Nat)
    (hbound : ∀ p ∈ posList bag c,
      start_timestamp bag ≤ p.stamp ∧ p.stamp ≤ end_timestamp bag) :
    remT bag b ⟨c, seekIdx bag a c⟩
      = (remT bag (end_timestamp bag) ⟨c, seekIdx bag (start_timestamp bag) c⟩).filter
          (fun e => decide (a ≤ e.pos.stamp ∧ e.pos.stamp ≤ b)) := by
  have hsorted := sorted_posList hs c
  -- left side: seek to the first entry ≥ a, cut at b, which equals filtering
  have hL := seek_take_eq_filter (a := a) (b := b) (posList bag c) hsorted 0
  simp only [Nat.zero_add] at hL
  -- right side: the full-range view seeks to 0 and cuts nothing
  have hseek0 : seekIdx bag (start_timestamp bag) c = 0 := by
    unfold seekIdx
    rw [List.countP_eq_zero]
    intro p hp
    have := (hbound p hp).1
    simp only [decide_eq_true_eq]
    omega
  unfold remT
  simp only [hseek0, List.drop_zero]
  have hall : takeLE (end_timestamp bag) (tagFrom 0 (posList bag c))
      = tagFrom 0 (posList bag c) := by
    refine takeLE_all ?_
    intro x hx
    rcases tagFrom_mem hx with ⟨_, hmem⟩
    exact (hbound x.2 (mem_of_getElemQ hmem)).2
  rw [hall]
  rw [filter_of_map]
  unfold seekIdx
  rw [hL]

theorem stRem_init_timebound {bag : Bag} (hs : SortedBag bag) (a b : Nat) :
    ∀ conns : List Nat,
      (∀ c ∈ conns, ∀ p ∈ posList bag c,
        start_timestamp bag ≤ p.stamp ∧ p.stamp ≤ end_timestamp bag) →
      stRem bag b (conns.map (fun c => ⟨c, seekIdx bag a c⟩))
      = (stRem bag (end_timestamp bag)
          (conns.map (fun c => ⟨c, seekIdx bag (start_timestamp bag) c⟩))).filter
          (fun e => decide (a ≤ e.pos.stamp ∧ e.pos.stamp ≤ b)) := by
  intro conns hbound
  induction conns with
  | nil => simp [stRem]
  | cons c rest ih =>
    simp only [List.map_cons, stRem, List.filter_append]
    rw [ih (fun c' hc' => hbound c' (List.mem_cons_of_mem _ hc'))]
    rw [remT_timebound hs a b c (hbound c (List.mem_cons_self _ _))]

theorem remT_conn_eq {bag : Bag} {endT : Nat} {cur : Cursor} {e : Emission}
    (h : e ∈ remT bag endT cur) : e.conn = cur.conn := (remT_mem h).1

theorem stRem_init_topics {bag : Bag} (startT endT : Nat) (T : List String) :
    ∀ conns : List Nat,
      stRem bag endT
        ((conns.filter (fun c => decide (topicOf bag c ∈ T))).map
          (fun c => ⟨c, seekIdx bag startT c⟩))
      = (stRem bag endT (conns.map (fun c => ⟨c, seekIdx bag startT c⟩))).filter
          (fun e => decide (topicOf bag e.conn ∈ T)) := by
  intro conns
  induction conns with
  | nil => simp [stRem]
  | cons c rest ih =>
    by_cases hc : topicOf bag c ∈ T
    · simp only [List.filter_cons, decide_eq_true_eq, if_pos hc, List.map_cons,
        stRem, List.filter_append]
      rw [ih]
      have hkeep : (remT bag endT ⟨c, seekIdx bag startT c⟩).filter
          (fun e => decide (topicOf bag e.conn ∈ T))
          = remT bag endT ⟨c, seekIdx bag startT c⟩ := by
        refine filter_all_true ?_
        intro e he
        have := remT_conn_eq he
        simp only [decide_eq_true_eq]
        rw [this]
        exact hc
      rw [hkeep]
    · simp only [List.filter_cons, decide_eq_true_eq, if_neg hc, List.map_cons,
        stRem, List.filter_append]
      rw [ih]
      have hdrop : (remT bag endT ⟨c, seekIdx bag startT c⟩).filter
          (fun e => decide (topicOf bag e.conn ∈ T))
          = [] := by
        refine filter_all_false ?_
        intro e he
        have := remT_conn_eq he
        simp only [decide_eq_false_iff_not]
        rw [this]
        exact hc
      rw [hdrop]
      simp

theorem stRem_conn_nil {bag : Bag} {endT : Nat} {st : List Cursor} {cn : Nat}
    (h : ∀ cur ∈ st, cur.conn ≠ cn) :
    (stRem bag endT st).filter (fun e => decide (e.conn = cn)) = [] := by
  refine filter_all_false ?_
  intro e he
  rcases stRem_mem he with ⟨cur, hcur, herem⟩
  have := remT_conn_eq herem
  simp only [decide_eq_false_iff_not]
  rw [this]
  exact h cur hcur

theorem stRem_filter_conn {bag : Bag} {endT : Nat} :
    ∀ {st : List Cursor},
      List.Pairwise (fun a b => a.conn < b.conn) st → ∀ cn : Nat,
      (stRem bag endT st).filter (fun e => decide (e.conn = cn))
        = optRem bag endT (findCursor st cn) := by
  intro st
  induction st with
  | nil => intro _ cn; rfl
  | cons x rest ih =>
    intro hpw cn
    rcases List.pairwise_cons.mp hpw with ⟨hhead, htail⟩
    by_cases hx : x.conn = cn
    · have hfind : findCursor (x :: rest) cn = some x := by
        unfold findCursor
        rw [List.find?_cons_of_pos]
        simpa using hx
      rw [hfind]
      simp only [stRem, List.filter_append]
      have h1 : (remT bag endT x).filter (fun e => decide (e.conn = cn))
          = remT bag endT x := by
        refine filter_all_true ?_
        intro e he
        have := remT_conn_eq he
        simp only [decide_eq_true_eq]
        omega
      have h2 : (stRem bag endT rest).filter (fun e => decide (e.conn = cn)) = [] := by
        refine stRem_conn_nil ?_
        intro cur hcur
        have := hhead cur hcur
        omega
      rw [h1, h2, List.append_nil]
      rfl
    · have hfind : findCursor (x :: rest) cn = findCursor rest cn := by
        unfold findCursor
        rw [List.find?_cons_of_neg]
        simpa using hx
      rw [hfind]
      simp only [stRem, List.filter_append]
      have h1 : (remT bag endT x).filter (fun e => decide (e.conn = cn)) = [] := by
        refine filter_all_false ?_
        intro e he
        have := remT_conn_eq he
        simp only [decide_eq_false_iff_not]
        rw [this]
        exact hx
      rw [h1, List.nil_append]
      exact ih htail cn

theorem optRem_sorted {bag : Bag} {endT : Nat} (hs : SortedBag bag)
    (o : Option Cursor) : List.Pairwise ELt (optRem bag endT o) := by
  cases o with
  | none => exact List.Pairwise.nil
  | some cur => exact remT_sorted (sorted_posList hs cur.conn)

theorem run_proj {bag : Bag} {endT : Nat} {st : List Cursor}
    (hs : SortedBag bag) (hv : ValidState bag endT st) (cn : Nat) :
    (runFuel bag endT (weight bag st) st).filter (fun e => decide (e.conn = cn))
      = optRem bag endT (findCursor st cn) := by
  have hperm := (run_perm _ _ hv (Nat.le_refl _)).filter (fun e => decide (e.conn = cn))
  rw [stRem_filter_conn hv.1 cn] at hperm
  refine perm_ELt_unique hperm ?_ (optRem_sorted hs _)
  exact List.Pairwise.sublist (List.filter_sublist _)
    (run_sorted hs _ _ hv (Nat.le_refl _))

theorem findCursor_mem {st : List Cursor} {cn : Nat} {cur : Cursor}
    (h : findCursor st cn = some cur) : cur ∈ st ∧ cur.conn = cn := by
  unfold findCursor at h
  refine ⟨List.mem_of_find?_eq_some h, ?_⟩
  have := List.find?_some h
  simpa using this

theorem remT_map_eq_cursor {bag : Bag} {endT : Nat} (hn : NodupBag bag)
    {cur1 cur2 : Cursor} (hc : cur1.conn = cur2.conn)
    (ha1 : alive bag endT cur1 = true) (ha2 : alive bag endT cur2 = true)
    (h : (remT bag endT cur1).map (fun e => (e.conn, e.pos))
       = (remT bag endT cur2).map (fun e => (e.conn, e.pos))) :
    cur1 = cur2 := by
  rcases alive_head ha1 with ⟨p1, hp1, hle1, _, _⟩
  rcases alive_head ha2 with ⟨p2, hp2, hle2, _, _⟩
  rw [remT_cons hp1 hle1, remT_cons hp2 hle2] at h
  simp only [List.map_cons, List.cons.injEq, Prod.mk.injEq] at h
  rcases h with ⟨⟨_, hp⟩, _⟩
  subst hp
  rw [hc] at hp1
  have := getElemQ_inj_of_nodup (nodup_posList hn cur2.conn) hp1 hp2
  cases cur1
  cases cur2
  simp only at hc this
  simp [hc, this]

theorem canon_eq_of_find : ∀ {s1 s2 : List Cursor},
    List.Pairwise (fun a b => a.conn < b.conn) s1 →
    List.Pairwise (fun a b => a.conn < b.conn) s2 →
    (∀ cn, findCursor s1 cn = findCursor s2 cn) → s1 = s2 := by
  intro s1
  induction s1 with
  | nil =>
    intro s2 _ _ hfind
    cases s2 with
    | nil => rfl
    | cons y ys =>
      exfalso
      have := hfind y.conn
      unfold findCursor at this
      rw [List.find?_cons_of_pos] at this
      · simp [List.find?] at this
      · simp
  | cons x xs ih =>
    intro s2 hp1 hp2 hfind
    cases s2 with
    | nil =>
      exfalso
      have := hfind x.conn
      unfold findCursor at this
      rw [List.find?_cons_of_pos] at this
      · simp [List.find?] at this
      · simp
    | cons y ys =>
      rcases List.pairwise_cons.mp hp1 with ⟨hh1, ht1⟩
      rcases List.pairwise_cons.mp hp2 with ⟨hh2, ht2⟩
      have hxy : x = y := by
        have hfx := hfind x.conn
        have hfy := hfind y.conn
        have e1 : findCursor (x :: xs) x.conn = some x := by
          unfold findCursor
          rw [List.find?_cons_of_pos]
          simp
        have e2 : findCursor (y :: ys) y.conn = some y := by
          unfold findCursor
          rw [List.find?_cons_of_pos]
          simp
        rw [e1] at hfx
        rw [e2] at hfy
        have hx2 : x ∈ y :: ys := (findCursor_mem hfx.symm).1
        have hy2 : y ∈ x :: xs := (findCursor_mem hfy).1
        rcases List.mem_cons.mp hx2 with h | h
        · exact h
        · rcases List.mem_cons.mp hy2 with h' | h'
          · exact h'.symm
          · exfalso
            have hba : y.conn < x.conn := hh2 x h
            have hab : x.conn < y.conn := hh1 y h'
            omega
      subst hxy
      have htails : ∀ cn, findCursor xs cn = findCursor ys cn := by
        intro cn
        by_cases hcn : x.conn = cn
        · subst hcn
          have hnx : findCursor xs x.conn = none := by
            unfold findCursor
            rw [List.find?_eq_none]
            intro cur hcur
            have := hh1 cur hcur
            simp only [decide_eq_true_eq]
            omega
          have hny : findCursor ys x.conn = none := by
            unfold findCursor
            rw [List.find?_eq_none]
            intro cur hcur
            have := hh2 cur hcur
            simp only [decide_eq_true_eq]
            omega
          rw [hnx, hny]
        · have := hfind cn
          unfold findCursor at this ⊢
          rw [List.find?_cons_of_neg _ (by simpa using hcn),
            List.find?_cons_of_neg _ (by simpa using hcn)] at this
          exact this
      rw [ih ht1 ht2 htails]

theorem zip_offsets_shift (conn : Nat) :
    ∀ (ch : List nested_rec) (o : Nat),
      scan_chunk conn o ch
        = (ch.zip (chunk_offsets o ch)).filterMap (fun ro =>
            match ro.1 with
            | .msg c t _ _ => if c = conn then some (t, ro.2) else none
            | _ => none) := by
  intro ch
  induction ch with
  | nil => intro o; rfl
  | cons r rest ih =>
    intro o
    cases r with
    | msg c t h d =>
      simp only [scan_chunk, chunk_offsets, List.zip_cons_cons, List.filterMap_cons]
      by_cases hc : c = conn
      · simp only [if_pos hc, nrec_size]
        rw [ih (o + (8 + h + d))]
      · simp only [if_neg hc, nrec_size]
        rw [ih (o + (8 + h + d))]
    | connRec h d =>
      simp only [scan_chunk, chunk_offsets, List.zip_cons_cons, List.filterMap_cons,
        nrec_size]
      rw [ih (o + (8 + h + d))]
    | other h d =>
      simp only [scan_chunk, chunk_offsets, List.zip_cons_cons, List.filterMap_cons,
        nrec_size]
      rw [ih (o + (8 + h + d))]

theorem scan_chunk_eq_index_data (conn : Nat) (ch : List nested_rec) :
    scan_chunk conn 0 ch = index_data_for conn ch :=
  zip_offsets_shift conn ch 0

/-! ## Round-trip and scan lemmas for the record parser -/

theorem le4_append_drop (n : Nat) (X : List Nat) : (le4 n ++ X).drop 4 = X := rfl

theorem le4_length (n : Nat) : (le4 n).length = 4 := rfl

theorem rd4_le4 {n : Nat} (X : List Nat) (hn : n < 4294967296) :
    rd4 (le4 n ++ X) = n := by
  simp only [le4, List.cons_append, List.nil_append, rd4]
  omega

theorem parseRecord_serialize {r : raw_rec} (hw : WfRec r) (tail : List Nat) :
    parseRecord (serialize r ++ tail) = .record r.hdr r.data tail := by
  rcases hw with ⟨hH, hD⟩
  have hbuf : serialize r ++ tail
      = le4 r.hdr.length ++ (r.hdr ++ (le4 r.data.length ++ (r.data ++ tail))) := by
    simp [serialize]
  rw [hbuf]
  unfold parseRecord
  rw [rd4_le4 _ hH, le4_append_drop, List.drop_left, List.take_left,
    rd4_le4 _ hD, le4_append_drop, List.drop_left, List.take_left]
  simp only [List.length_append, le4_length]
  rw [if_neg (by omega), if_neg (by omega), if_neg (by omega), if_neg (by omega),
    if_neg (by omega)]

theorem parseRecord_nil : parseRecord [] = .atEnd := rfl

theorem parseAll_atEnd {o : Nat} {buf : List Nat}
    (h : parseRecord buf = .atEnd) : parseAll o buf = ([], true) := by
  rw [parseAll]
  split
  · rfl
  next h' => rw [h'] at h; cases h
  next hdr' data' rest' h' => rw [h'] at h; cases h

theorem parseAll_corrupt {o : Nat} {buf : List Nat}
    (h : parseRecord buf = .corrupt) : parseAll o buf = ([], false) := by
  rw [parseAll]
  split
  next h' => rw [h'] at h; cases h
  · rfl
  next hdr' data' rest' h' => rw [h'] at h; cases h

theorem parseAll_record {o : Nat} {buf hdr data rest : List Nat}
    (h : parseRecord buf = .record hdr data rest) :
    parseAll o buf
      = ((o, hdr, data) :: (parseAll (o + (buf.length - rest.length)) rest).1,
        (parseAll (o + (buf.length - rest.length)) rest).2) := by
  rw [parseAll]
  split
  next h' => rw [h'] at h; cases h
  next h' => rw [h'] at h; cases h
  next hdr' data' rest' h' =>
    rw [h'] at h
    cases h
    rfl

theorem parseAll_nil (o : Nat) : parseAll o [] = ([], true) :=
  parseAll_atEnd parseRecord_nil

theorem parseAll_append :
    ∀ (recs : List raw_rec) (o : Nat) (tail : List Nat), (∀ r ∈ recs, WfRec r) →
      parseAll o (serializeAll recs ++ tail)
        = (withOffsets o recs ++ (parseAll (o + (serializeAll recs).length) tail).1,
          (parseAll (o + (serializeAll recs).length) tail).2) := by
  intro recs
  induction recs with
  | nil =>
    intro o tail _
    simp [serializeAll, withOffsets]
  | cons r rest ih =>
    intro o tail hwf
    have hw : WfRec r := hwf r (List.mem_cons_self _ _)
    have hbuf : serializeAll (r :: rest) ++ tail
        = serialize r ++ (serializeAll rest ++ tail) := by
      simp [serializeAll]
    rw [hbuf]
    have hp := parseRecord_serialize hw (serializeAll rest ++ tail)
    rw [parseAll_record hp]
    have hlen : (serialize r ++ (serializeAll rest ++ tail)).length
        - (serializeAll rest ++ tail).length = (serialize r).length := by
      simp only [List.length_append]
      omega
    rw [hlen]
    rw [ih (o + (serialize r).length) tail
      (fun x hx => hwf x (List.mem_cons_of_mem _ hx))]
    have hlen2 : o + (serialize r).length + (serializeAll rest).length
        = o + (serializeAll (r :: rest)).length := by
      simp only [serializeAll, List.length_append]
      omega
    simp only [withOffsets, hlen2, List.cons_append]

/-! ## Corrupt-record behaviour, assembled -/

theorem open_records_error {recs : List raw_rec} {tail : List Nat}
    (hwf : ∀ r ∈ recs, WfRec r) (hc : parseRecord tail = .corrupt) :
    open_records (serializeAll recs ++ tail) = .error () := by
  unfold open_records
  rw [parseAll_append recs 0 tail hwf, parseAll_corrupt hc]
  rfl

theorem open_records_ok {recs : List raw_rec}
    (hwf : ∀ r ∈ recs, WfRec r) :
    open_records (serializeAll recs) = .ok (withOffsets 0 recs) := by
  unfold open_records
  have hb : serializeAll recs = serializeAll recs ++ [] := by simp
  rw [hb, parseAll_append recs 0 [] hwf, parseAll_nil]
  simp

theorem chunk_entries_truncate (isMsg : List Nat → Bool) (getStamp : List Nat → Nat)
    {recs : List raw_rec} {tail : List Nat}
    (hwf : ∀ r ∈ recs, WfRec r) (hc : parseRecord tail = .corrupt) :
    chunk_entries isMsg getStamp (serializeAll recs ++ tail)
      = chunk_entries isMsg getStamp (serializeAll recs) := by
  unfold chunk_entries
  rw [parseAll_append recs 0 tail hwf, parseAll_corrupt hc]
  have hb : serializeAll recs = serializeAll recs ++ [] := by simp
  rw [hb, parseAll_append recs 0 [] hwf, parseAll_nil]

theorem bag_index_congr (isMsg : List Nat → Bool) (getStamp : List Nat → Nat)
    {c1 c2 : List Nat}
    (h : chunk_entries isMsg getStamp c1 = chunk_entries isMsg getStamp c2) :
    ∀ (d1 : List (List Nat)) (i : Nat) (d2 : List (List Nat)),
      bag_index isMsg getStamp i (d1 ++ c1 :: d2)
        = bag_index isMsg getStamp i (d1 ++ c2 :: d2) := by
  intro d1
  induction d1 with
  | nil =>
    intro i d2
    simp only [List.nil_append, bag_index, h]
  | cons ch rest ih =>
    intro i d2
    simp only [List.cons_append, bag_index, List.append_eq]
    rw [ih (i + 1) d2]

theorem parseRecord_hdr_overrun {hl : Nat} {tail : List Nat}
    (hn : hl < 4294967296) (hlen : tail.length < hl) :
    parseRecord (le4 hl ++ tail) = .corrupt := by
  unfold parseRecord
  rw [rd4_le4 _ hn, le4_append_drop]
  simp only [List.length_append, le4_length]
  rw [if_neg (by omega), if_neg (by omega), if_pos hlen]

theorem parseRecord_data_overrun {hdr : List Nat} {dl : Nat} {tail : List Nat}
    (hH : hdr.length < 4294967296) (hD : dl < 4294967296) (hlen : tail.length < dl) :
    parseRecord (le4 hdr.length ++ (hdr ++ (le4 dl ++ tail))) = .corrupt := by
  unfold parseRecord
  rw [rd4_le4 _ hH, le4_append_drop, List.drop_left, rd4_le4 _ hD, le4_append_drop]
  simp only [List.length_append, le4_length]
  rw [if_neg (by omega), if_neg (by omega), if_neg (by omega), if_neg (by omega),
    if_pos hlen]

/-! ## Claim theorems -/

/-- C2: building the Index via the fast path (adopting embedded IndexData
records) and via the recovery path (scanning each chunk's nested
MessageData records with a running offset) produce identical per-connection
MessagePosition lists, in the same order, for every file and connection. -/
theorem c2_index_paths_agree (conn : Nat) (chunks : List (List nested_rec)) :
    fast_index conn chunks = recovery_index conn chunks := by
  unfold fast_index recovery_index
  suffices h : ∀ i, index_from (index_data_for conn) i chunks
      = index_from (fun ch => scan_chunk conn 0 ch) i chunks by exact h 0
  induction chunks with
  | nil => intro i; rfl
  | cons ch rest ih =>
    intro i
    simp only [index_from]
    rw [scan_chunk_eq_index_data, ih (i + 1)]

/-- C6: a record whose declared header or data length exceeds the remaining
buffer is a corrupt record; in the top-level stream this is fatal for
`open()`, while among a chunk's nested records the chunk's contribution is
truncated at the corrupt record (all prior well-formed records of that
chunk, and all other chunks, still contribute), and `open()` still
succeeds for a file whose top-level framing is intact. -/
theorem c6_corrupt_record_handling :
    (∀ (hl : Nat) (tail : List Nat), hl < 4294967296 → tail.length < hl →
      parseRecord (le4 hl ++ tail) = .corrupt)
    ∧ (∀ (hdr : List Nat) (dl : Nat) (tail : List Nat),
        hdr.length < 4294967296 → dl < 4294967296 → tail.length < dl →
        parseRecord (le4 hdr.length ++ (hdr ++ (le4 dl ++ tail))) = .corrupt)
    ∧ (∀ (recs : List raw_rec) (tail : List Nat), (∀ r ∈ recs, WfRec r) →
        parseRecord tail = .corrupt →
        open_records (serializeAll recs ++ tail) = .error ())
    ∧ (∀ (recs : List raw_rec), (∀ r ∈ recs, WfRec r) →
        open_records (serializeAll recs) = .ok (withOffsets 0 recs))
    ∧ (∀ (isMsg : List Nat → Bool) (getStamp : List Nat → Nat)
        (recs : List raw_rec) (tail : List Nat), (∀ r ∈ recs, WfRec r) →
        parseRecord tail = .corrupt →
        chunk_entries isMsg getStamp (serializeAll recs ++ tail)
          = chunk_entries isMsg getStamp (serializeAll recs))
    ∧ (∀ (isMsg : List Nat → Bool) (getStamp : List Nat → Nat)
        (i : Nat) (d1 d2 : List (List Nat)) (recs : List raw_rec) (tail : List Nat),
        (∀ r ∈ recs, WfRec r) → parseRecord tail = .corrupt →
        bag_index isMsg getStamp i (d1 ++ (serializeAll recs ++ tail) :: d2)
          = bag_index isMsg getStamp i (d1 ++ serializeAll recs :: d2)) := by
  refine ⟨?_, ?_, ?_, ?_, ?_, ?_⟩
  · intro hl tail hn hlen
    exact parseRecord_hdr_overrun hn hlen
  · intro hdr dl tail hH hD hlen
    exact parseRecord_data_overrun hH hD hlen
  · intro recs tail hwf hc
    exact open_records_error hwf hc
  · intro recs hwf
    exact open_records_ok hwf
  · intro isMsg getStamp recs tail hwf hc
    exact chunk_entries_truncate isMsg getStamp hwf hc
  · intro isMsg getStamp i d1 d2 recs tail hwf hc
    exact bag_index_congr isMsg getStamp
      (chunk_entries_truncate isMsg getStamp hwf hc) d1 i d2

/-- C6 witness: the corrupt-record behaviour at concrete inputs — a header
length 5 with 3 bytes left, a data length 9 with 2 bytes left, and a file
of one well-formed record followed by a truncated record declaring 99
header bytes with none remaining. -/
theorem c6_corrupt_record_handling_witness :
    parseRecord (le4 5 ++ [1, 2, 3]) = .corrupt
    ∧ parseRecord (le4 1 ++ ([7] ++ (le4 9 ++ [1, 2]))) = .corrupt
    ∧ open_records (serializeAll [raw_rec.mk [7] [9, 9]] ++ le4 99) = .error ()
    ∧ open_records (serializeAll [raw_rec.mk [7] [9, 9]])
        = .ok (withOffsets 0 [raw_rec.mk [7] [9, 9]])
    ∧ chunk_entries (fun h => decide (h = [7])) (fun _ => 3)
        (serializeAll [raw_rec.mk [7] [9, 9]] ++ le4 99)
        = chunk_entries (fun h => decide (h = [7])) (fun _ => 3)
          (serializeAll [raw_rec.mk [7] [9, 9]])
    ∧ bag_index (fun h => decide (h = [7])) (fun _ => 3) 0
        ([] ++ (serializeAll [raw_rec.mk [7] [9, 9]] ++ le4 99) :: [])
        = bag_index (fun h => decide (h = [7])) (fun _ => 3) 0
          ([] ++ serializeAll [raw_rec.mk [7] [9, 9]] :: []) :=
  ⟨c6_corrupt_record_handling.1 5 [1, 2, 3] (by decide) (by decide),
   c6_corrupt_record_handling.2.1 [7] 9 [1, 2] (by decide) (by decide) (by decide),
   c6_corrupt_record_handling.2.2.1 [raw_rec.mk [7] [9, 9]] (le4 99)
     (by decide) (by decide),
   c6_corrupt_record_handling.2.2.2.1 [raw_rec.mk [7] [9, 9]] (by decide),
   c6_corrupt_record_handling.2.2.2.2.1 (fun h => decide (h = [7])) (fun _ => 3)
     [raw_rec.mk [7] [9, 9]] (le4 99) (by decide) (by decide),
   c6_corrupt_record_handling.2.2.2.2.2 (fun h => decide (h = [7])) (fun _ => 3)
     0 [] [] [raw_rec.mk [7] [9, 9]] (le4 99) (by decide) (by decide)⟩

/-- C5 counterexample: the claim "for every target type whose expected
schema hash differs from the message's recorded hash, `is` returns false"
fails for the wildcard hash: `"*"` differs from the recorded hash, yet
`is` returns true (source line 113: `(t_md5sum == "*") || ...`). -/
theorem c5_schema_mismatch_counterexample :
    ("*" : String) ≠ "d41d8cd9" ∧ (msg.mk "d41d8cd9" []).is "*" = true := by
  constructor
  · decide
  · rfl

/-- C5 (amended): for every target type whose declared MD5 string is not
the wildcard `"*"` and differs from the message's recorded hash, `is`
returns false and `to` returns false without invoking the deserialization
backend. -/
theorem c5_schema_mismatch (m : msg) (t_md5sum : String)
    (backend : List Char → Bool)
    (hstar : t_md5sum ≠ "*") (hne : t_md5sum ≠ m.md5) :
    m.is t_md5sum = false ∧ m.toTrace t_md5sum backend = (false, 0) := by
  have his : m.is t_md5sum = false := by
    unfold msg.is
    simp [hstar, hne]
  refine ⟨his, ?_⟩
  unfold msg.toTrace
  rw [his]
  simp

/-- C5 witness: a concrete non-wildcard hash mismatch ("aa" vs "bb"). -/
theorem c5_schema_mismatch_witness :
    ("aa" : String) ≠ "*" ∧ ("aa" : String) ≠ "bb" ∧
    (msg.mk "bb" ['x']).is "aa" = false ∧
    (msg.mk "bb" ['x']).toTrace "aa" (fun _ => true) = (false, 0) :=
  ⟨by decide, by decide,
   (c5_schema_mismatch (msg.mk "bb" ['x']) "aa" (fun _ => true)
     (by decide) (by decide)).1,
   (c5_schema_mismatch (msg.mk "bb" ['x']) "aa" (fun _ => true)
     (by decide) (by decide)).2⟩

/-- C9: for every message and a target type whose declared MD5 string is
the wildcard `"*"`, `is` returns true regardless of the recorded hash, and
`to` therefore invokes the deserialization backend exactly once on the
message's payload. -/
theorem c9_wildcard_bypasses_hash_check (m : msg) (backend : List Char → Bool) :
    m.is "*" = true ∧ m.toTrace "*" backend = (backend m.message_data_block, 1) := by
  have his : m.is "*" = true := by
    unfold msg.is
    simp
  refine ⟨his, ?_⟩
  unfold msg.toTrace
  rw [his]
  simp

/-- C10: the time-bound builders `with_start_time`, `with_end_time` and
`with_time_range` set exactly the timestamp fields they name, leave
`m_connections` (the topic selection) unchanged, and compose: setting the
start then the end bound equals `with_time_range`. -/
theorem c10_time_builders_frame (v : view) (a b : Nat) :
    (v.with_start_time a).m_connections = v.m_connections
    ∧ (v.with_end_time b).m_connections = v.m_connections
    ∧ (v.with_time_range a b).m_connections = v.m_connections
    ∧ (v.with_start_time a).m_start_time = a
    ∧ (v.with_start_time a).m_end_time = v.m_end_time
    ∧ (v.with_end_time b).m_end_time = b
    ∧ (v.with_end_time b).m_start_time = v.m_start_time
    ∧ (v.with_time_range a b).m_start_time = a
    ∧ (v.with_time_range a b).m_end_time = b
    ∧ (v.with_start_time a).with_end_time b = v.with_time_range a b :=
  ⟨rfl, rfl, rfl, rfl, rfl, rfl, rfl, rfl, rfl, rfl⟩

/-- C1: for every bag with a well-formed (timestamp-sorted) index and
every well-formed view over it, the merge iteration yields messages in
non-decreasing timestamp order, and messages with equal timestamps come in
the discovery order of their connections. -/
theorem c1_merge_ordered (bag : Bag) (v : view)
    (hs : SortedBag bag) (hw : ViewWf bag v) :
    List.Pairwise (fun e1 e2 : Emission =>
      e1.pos.stamp ≤ e2.pos.stamp ∧ (e1.pos.stamp = e2.pos.stamp → e1.conn ≤ e2.conn))
      (viewRun bag v) := by
  refine (viewRun_sorted hs hw).imp ?_
  intro e1 e2 h
  unfold ELt at h
  rcases h with h | ⟨h1, h2 | ⟨h2, h3⟩⟩
  · exact ⟨by omega, fun he => by omega⟩
  · exact ⟨by omega, fun _ => by omega⟩
  · exact ⟨by omega, fun _ => by omega⟩

/-- C1 witness: the spec's concrete two-connection file, iterated with the
whole-file view. -/
theorem c1_merge_ordered_witness :
    SortedBag exBag ∧ ViewWf exBag (get_view exBag) ∧
    List.Pairwise (fun e1 e2 : Emission =>
      e1.pos.stamp ≤ e2.pos.stamp ∧ (e1.pos.stamp = e2.pos.stamp → e1.conn ≤ e2.conn))
      (viewRun exBag (get_view exBag)) :=
  ⟨by decide, by decide, c1_merge_ordered exBag (get_view exBag) (by decide) (by decide)⟩

/-- C4: narrowing the whole-file view to time bounds `[a, b]` inside the
file's `[start_timestamp(), end_timestamp()]` yields exactly the messages
of the full iteration whose timestamp `t` satisfies `a ≤ t ≤ b` (end bound
inclusive), in the same order. -/
theorem c4_time_bounds_filter (bag : Bag) (a b : Nat) (hs : SortedBag bag)
    (hab : a ≤ b) (ha : start_timestamp bag ≤ a) (hb : b ≤ end_timestamp bag) :
    viewRun bag ((get_view bag).with_time_range a b)
      = (viewRun bag (get_view bag)).filter
          (fun e => decide (a ≤ e.pos.stamp ∧ e.pos.stamp ≤ b)) := by
  have hw1 : ViewWf bag ((get_view bag).with_time_range a b) := ViewWf_of_none rfl
  have hw2 : ViewWf bag (get_view bag) := ViewWf_of_none rfl
  have hI1 : initCursors bag ((get_view bag).with_time_range a b)
      = (List.range bag.length).map (fun c => ⟨c, seekIdx bag a c⟩) := rfl
  have hI2 : initCursors bag (get_view bag)
      = (List.range bag.length).map
          (fun c => ⟨c, seekIdx bag (start_timestamp bag) c⟩) := rfl
  have hbound : ∀ c ∈ List.range bag.length, ∀ p ∈ posList bag c,
      start_timestamp bag ≤ p.stamp ∧ p.stamp ≤ end_timestamp bag := by
    intro c _ p hp
    exact ⟨start_le_stamp (stamp_mem_allStamps hp),
      stamp_le_end (stamp_mem_allStamps hp)⟩
  have hmid := stRem_init_timebound hs a b (List.range bag.length) hbound
  have hperm1 : (viewRun bag ((get_view bag).with_time_range a b)).Perm
      (stRem bag b ((List.range bag.length).map (fun c => ⟨c, seekIdx bag a c⟩))) := by
    have hvp := viewRun_perm hw1
    rw [hI1] at hvp
    exact hvp
  have hperm2 : ((viewRun bag (get_view bag)).filter
      (fun e => decide (a ≤ e.pos.stamp ∧ e.pos.stamp ≤ b))).Perm
      ((stRem bag (end_timestamp bag)
        ((List.range bag.length).map
          (fun c => ⟨c, seekIdx bag (start_timestamp bag) c⟩))).filter
        (fun e => decide (a ≤ e.pos.stamp ∧ e.pos.stamp ≤ b))) := by
    have hvp := (viewRun_perm hw2).filter
      (fun e => decide (a ≤ e.pos.stamp ∧ e.pos.stamp ≤ b))
    rw [hI2] at hvp
    exact hvp
  rw [hmid] at hperm1
  exact perm_ELt_unique (hperm1.trans hperm2.symm) (viewRun_sorted hs hw1)
    (List.Pairwise.sublist (List.filter_sublist _) (viewRun_sorted hs hw2))

/-- C4 witness: on the spec's example file (stamps 1..5), the time range
[2, 4] yields exactly the in-range subsequence of the full iteration. -/
theorem c4_time_bounds_filter_witness :
    SortedBag exBag ∧ 2 ≤ 4 ∧ start_timestamp exBag ≤ 2 ∧ 4 ≤ end_timestamp exBag ∧
    viewRun exBag ((get_view exBag).with_time_range 2 4)
      = (viewRun exBag (get_view exBag)).filter
          (fun e => decide (2 ≤ e.pos.stamp ∧ e.pos.stamp ≤ 4)) :=
  ⟨by decide, by decide, by decide, by decide,
   c4_time_bounds_filter exBag 2 4 (by decide) (by decide) (by decide) (by decide)⟩

/-- C3: restricting a whole-connection view to a topic set `T` yields
exactly the subsequence of the unfiltered iteration whose connection's
topic is in `T` — no in-range message on a topic of `T` is omitted and the
relative order is unchanged. -/
theorem c3_topic_filter_subsequence (bag : Bag) (v : view) (T : List String)
    (hs : SortedBag bag) (hv : v.m_connections = none) :
    viewRun bag (set_topics bag v T)
      = (viewRun bag v).filter (fun e => decide (topicOf bag e.conn ∈ T)) := by
  have hw1 : ViewWf bag (set_topics bag v T) := ViewWf_set_topics bag v T
  have hw2 : ViewWf bag v := ViewWf_of_none hv
  have hI1 : initCursors bag (set_topics bag v T)
      = ((List.range bag.length).filter (fun c => decide (topicOf bag c ∈ T))).map
          (fun c => ⟨c, seekIdx bag v.m_start_time c⟩) := rfl
  have hI2 : initCursors bag v
      = (List.range bag.length).map (fun c => ⟨c, seekIdx bag v.m_start_time c⟩) := by
    unfold initCursors selectedConns
    rw [hv]
    rfl
  have hmid := @stRem_init_topics bag v.m_start_time v.m_end_time T
    (List.range bag.length)
  have hperm1 : (viewRun bag (set_topics bag v T)).Perm
      (stRem bag v.m_end_time (((List.range bag.length).filter
        (fun c => decide (topicOf bag c ∈ T))).map
          (fun c => ⟨c, seekIdx bag v.m_start_time c⟩))) := by
    have hvp := viewRun_perm hw1
    rw [hI1] at hvp
    exact hvp
  have hperm2 : ((viewRun bag v).filter
      (fun e => decide (topicOf bag e.conn ∈ T))).Perm
      ((stRem bag v.m_end_time ((List.range bag.length).map
        (fun c => ⟨c, seekIdx bag v.m_start_time c⟩))).filter
        (fun e => decide (topicOf bag e.conn ∈ T))) := by
    have hvp := (viewRun_perm hw2).filter (fun e => decide (topicOf bag e.conn ∈ T))
    rw [hI2] at hvp
    exact hvp
  rw [hmid] at hperm1
  exact perm_ELt_unique (hperm1.trans hperm2.symm) (viewRun_sorted hs hw1)
    (List.Pairwise.sublist (List.filter_sublist _) (viewRun_sorted hs hw2))

/-- C3 witness: on the spec's example file, selecting topic "/b" yields
exactly the "/b"-subsequence (stamps 2 and 4). -/
theorem c3_topic_filter_subsequence_witness :
    SortedBag exBag ∧ (get_view exBag).m_connections = none ∧
    viewRun exBag (set_topics exBag (get_view exBag) ["/b"])
      = (viewRun exBag (get_view exBag)).filter
          (fun e => decide (topicOf exBag e.conn ∈ (["/b"] : List String))) :=
  ⟨by decide, rfl,
   c3_topic_filter_subsequence exBag (get_view exBag) ["/b"] (by decide) rfl⟩

theorem map_filter_conn (cn : Nat) :
    ∀ l : List Emission,
      (l.map (fun e => (e.conn, e.pos))).filter (fun pr => decide (pr.1 = cn))
        = (l.filter (fun e => decide (e.conn = cn))).map (fun e => (e.conn, e.pos)) := by
  intro l
  induction l with
  | nil => rfl
  | cons e rest ih =>
    by_cases he : e.conn = cn
    · simp only [List.map_cons, List.filter_cons]
      rw [if_pos (by simpa using he), if_pos (by simpa using he)]
      simp [ih]
    · simp only [List.map_cons, List.filter_cons]
      rw [if_neg (by simpa using he), if_neg (by simpa using he)]
      exact ih

/-- C7: two iterators over the same bag and end bound compare equal
(`operator==`, which compares the `connection_positions` vectors) exactly
when they would produce the same remaining sequence of messages; and an
iterator has an empty remaining sequence exactly when it compares equal to
the `end()` sentinel, whose cursor state is empty. -/
theorem c7_iterator_equality (bag : Bag) (endT : Nat) (s1 s2 : List Cursor)
    (hs : SortedBag bag) (hn : NodupBag bag)
    (h1 : ValidState bag endT s1) (h2 : ValidState bag endT s2) :
    (iter_eq s1 s2 = true ↔ msgSeq bag endT s1 = msgSeq bag endT s2)
    ∧ (msgSeq bag endT s1 = [] ↔ iter_eq s1 end_iter = true) := by
  constructor
  · constructor
    · intro h
      have heq : s1 = s2 := of_decide_eq_true h
      rw [heq]
    · intro heq
      have hfind : ∀ cn, findCursor s1 cn = findCursor s2 cn := by
        intro cn
        have hproj : (msgSeq bag endT s1).filter (fun pr => decide (pr.1 = cn))
            = (msgSeq bag endT s2).filter (fun pr => decide (pr.1 = cn)) := by
          rw [heq]
        unfold msgSeq at hproj
        rw [map_filter_conn cn, map_filter_conn cn] at hproj
        rw [run_proj hs h1 cn, run_proj hs h2 cn] at hproj
        cases hf1 : findCursor s1 cn with
        | none =>
          cases hf2 : findCursor s2 cn with
          | none => rfl
          | some cur2 =>
            exfalso
            rw [hf1, hf2] at hproj
            unfold optRem at hproj
            simp only [List.map_nil] at hproj
            have hmem := findCursor_mem hf2
            exact remT_ne_nil (h2.2 cur2 hmem.1)
              (List.map_eq_nil.mp hproj.symm)
        | some cur1 =>
          cases hf2 : findCursor s2 cn with
          | none =>
            exfalso
            rw [hf1, hf2] at hproj
            unfold optRem at hproj
            simp only [List.map_nil] at hproj
            have hmem := findCursor_mem hf1
            exact remT_ne_nil (h1.2 cur1 hmem.1)
              (List.map_eq_nil.mp hproj)
          | some cur2 =>
            rw [hf1, hf2] at hproj
            unfold optRem at hproj
            have hm1 := findCursor_mem hf1
            have hm2 := findCursor_mem hf2
            have hcc : cur1 = cur2 :=
              remT_map_eq_cursor hn (by rw [hm1.2, hm2.2])
                (h1.2 cur1 hm1.1) (h2.2 cur2 hm2.1) hproj
            rw [hcc]
      have heq2 : s1 = s2 := canon_eq_of_find h1.1 h2.1 hfind
      rw [heq2]
      unfold iter_eq
      simp
  · cases s1 with
    | nil =>
      constructor
      · intro _; rfl
      · intro _; rfl
    | cons c rest =>
      have hidx := alive_idx_lt (h1.2 c (List.mem_cons_self _ _))
      have hwpos : 0 < weight bag (c :: rest) := by
        unfold weight
        simp only [List.map_cons, List.sum_cons]
        omega
      obtain ⟨n, hwn⟩ : ∃ n, weight bag (c :: rest) = n + 1 :=
        ⟨weight bag (c :: rest) - 1, by omega⟩
      have hne : msgSeq bag endT (c :: rest) ≠ [] := by
        unfold msgSeq
        rw [hwn]
        cases hp : pickMin bag (c :: rest) with
        | none => exact absurd (pickMin_none_iff.mp hp) (by simp)
        | some c' => simp [runFuel, hp]
      constructor
      · intro hmsg
        exact absurd hmsg hne
      · intro hiter
        exfalso
        unfold iter_eq end_iter at hiter
        simp at hiter

/-- C7 witness: on the spec's example file, the iterator state holding
connection 0 at its second position equals itself and is distinct from
`end()`, matching its non-empty remaining message sequence. -/
theorem c7_iterator_equality_witness :
    SortedBag exBag ∧ NodupBag exBag ∧
    ValidState exBag 5 [⟨0, 1⟩] ∧
    ((iter_eq [⟨0, 1⟩] [⟨0, 1⟩] = true
        ↔ msgSeq exBag 5 [⟨0, 1⟩] = msgSeq exBag 5 [⟨0, 1⟩])
      ∧ (msgSeq exBag 5 [⟨0, 1⟩] = [] ↔ iter_eq [⟨0, 1⟩] end_iter = true)) :=
  ⟨by decide, by decide, by decide,
   c7_iterator_equality exBag 5 [⟨0, 1⟩] [⟨0, 1⟩] (by decide) (by decide)
     (by decide) (by decide)⟩
